import Mathlib

/-!
Verification of the rusolve linear-programming / linear-system solver.

The data model and the three engines (Gaussian elimination, two-phase
Simplex, brute-force integer enumeration) are shallowly embedded from the
Rust sources (`problem.rs`, `gaussian_elimination.rs`, `simplex.rs`,
`brute.rs`).  64-bit floating point values are modelled as exact rationals
(`ℚ`); the special constants `f64::MAX`, `f64::MIN` and
`f32::EPSILON as f64` are modelled by their exact rational values, which
are exactly representable.  Expressions (a map from variable index to
coefficient, absent entries meaning 0) are modelled as dense coefficient
lists, matching how every constructor in the library builds them.

The windowed `Matrix` type with typed row/column indices used by the
engines is not part of the sources at hand (only an older revision of
`matrix.rs` is); its operations are modelled from the specification's
description (spec sections 3 and 4.1) and are marked `Modelled from the
spec:` below.
-/

set_option maxRecDepth 10000

attribute [local semireducible] Rat.add Rat.sub Rat.mul Rat.inv

namespace Rusolve

/-- `VariableKind` from `problem.rs`: continuous, or integer with inclusive
bounds. -/
inductive VariableKind where
  | continuous : VariableKind
  | integer (min max : Int) : VariableKind
deriving DecidableEq, Repr

/-- `ObjectiveKind` from `problem.rs`. -/
inductive ObjectiveKind where
  | minimize : ObjectiveKind
  | maximize : ObjectiveKind
deriving DecidableEq, Repr

/-- `ConstraintKind` from `problem.rs`. -/
inductive ConstraintKind where
  | greaterThanOrEqualTo : ConstraintKind
  | equalTo : ConstraintKind
  | lessThanOrEqualTo : ConstraintKind
deriving DecidableEq, Repr

/-- `Expression` from `problem.rs`: map from variable index to coefficient,
modelled as a dense coefficient list (`Expression::new` builds exactly
this; absent indices read as 0). -/
abbrev Expression := List ℚ

/-- `Expression::get`: the coefficient at `index`, 0 when absent. -/
def Expression.get (e : Expression) (index : Nat) : ℚ := e.getD index 0

/-- `Constraint` from `problem.rs`. -/
structure Constraint where
  expr : Expression
  kind : ConstraintKind
  constant : ℚ
deriving DecidableEq, Repr

/-- `Problem` from `problem.rs`: variable kinds (indexed by position),
constraints, optional objective. -/
structure Problem where
  vars : List VariableKind
  constraints : List Constraint
  objective : Option (Expression × ObjectiveKind)
deriving DecidableEq, Repr

/-- `Solution` from `problem.rs`. -/
structure Solution where
  coeffs : List ℚ
  objective : Option ℚ
deriving DecidableEq, Repr

/-- The error kinds of `SolverError` (see spec section 7). -/
inductive SolverErrorKind where
  | invalidConstraint
  | invalidObjective
  | infeasible
  | underspecified
  | unableToSolve
  | invalidSolution
deriving DecidableEq, Repr

/-- A typed error: kind plus human-readable message. -/
structure SolverError where
  kind : SolverErrorKind
  msg : String
deriving DecidableEq, Repr

/-- `Result<T>` from the crate: success or a `SolverError`. -/
inductive SolveResult (α : Type) where
  | ok (val : α) : SolveResult α
  | err (e : SolverError) : SolveResult α
deriving DecidableEq, Repr

/-- Monadic bind on `SolveResult` (the `?` operator). -/
def SolveResult.bind {α β : Type} : SolveResult α → (α → SolveResult β) → SolveResult β
  | .ok a, f => f a
  | .err e, _ => .err e

/-- The exact value of `f64::MAX = (2^53 - 1) * 2^971`, written out as a
numeral so that it evaluates without deep recursion. -/
def f64Max : ℚ := 179769313486231570814527423731704356798070567525844996598917476803157260780028538760589558632766878171540458953514382464234321326889464182768467546703537516986049910576551282076245490090389328944075868508455133942304583236903222948165808559332123348274797826204144723168738177180919299881250404026184124858368

/-- The exact value of `f64::MIN = -f64::MAX`. -/
def f64Min : ℚ := -f64Max

/-- The exact value of `f32::EPSILON as f64 = 2^-23 = 1/8388608`. -/
def f32Eps : ℚ := 1 / 8388608

/-- Modelled from the spec: the dense row-major matrix of spec section 3.
Width `W`, height `H`, a `W·H` row-major buffer, and a sub-view window
`(startX, startY, W, H)` whose lower-right corner never moves.  Cell
access uses absolute indices mapped with the original width; the window
only restricts the iteration helpers. -/
structure Matrix where
  width : Nat
  height : Nat
  startX : Nat
  startY : Nat
  coeffs : List ℚ
deriving DecidableEq, Repr

namespace Matrix

/-- Modelled from the spec: `Matrix::new(W, H, coeffs)` with the full
window. -/
def new (w h : Nat) (cs : List ℚ) : Matrix := ⟨w, h, 0, 0, cs⟩

/-- Modelled from the spec: `Matrix::new_gaussian_elimination`. -/
def new_gaussian_elimination (w h _variables : Nat) (cs : List ℚ) : Matrix :=
  ⟨w, h, 0, 0, cs⟩

/-- Modelled from the spec: `Matrix::value(row, col)` — raw storage is
`W`-wide, index mapping uses the original `W`. -/
def value (m : Matrix) (row col : Nat) : ℚ := m.coeffs.getD (col + row * m.width) 0

/-- Modelled from the spec: `Matrix::set_value`. -/
def set_value (m : Matrix) (row col : Nat) (v : ℚ) : Matrix :=
  { m with coeffs := m.coeffs.set (col + row * m.width) v }

/-- Modelled from the spec: `Matrix::set_value_raw` (absolute indices; same
mapping as `set_value` since cell access is absolute). -/
def set_value_raw (m : Matrix) (row col : Nat) (v : ℚ) : Matrix :=
  m.set_value row col v

/-- Modelled from the spec: first row of the window. -/
def first_row (m : Matrix) : Nat := m.startY

/-- Modelled from the spec: first column of the window. -/
def first_col (m : Matrix) : Nat := m.startX

/-- Modelled from the spec: the last (right-hand-side) column, `W - 1`. -/
def last_col (m : Matrix) : Nat := m.width - 1

/-- Modelled from the spec: row indices of the current window. -/
def rows (m : Matrix) : List Nat := List.range' m.startY (m.height - m.startY)

/-- Modelled from the spec: window rows starting at `r`. -/
def rows_from (m : Matrix) (r : Nat) : List Nat := List.range' r (m.height - r)

/-- Modelled from the spec: column indices of the current window. -/
def cols (m : Matrix) : List Nat := List.range' m.startX (m.width - m.startX)

/-- Modelled from the spec: window columns starting at `c`. -/
def cols_from (m : Matrix) (c : Nat) : List Nat := List.range' c (m.width - c)

/-- Modelled from the spec: the half-open column range `[a, b)`. -/
def cols_range (_m : Matrix) (a b : Nat) : List Nat := List.range' a (b - a)

/-- Modelled from the spec: `Matrix::sub(sx, sy)` narrows the window's
upper-left corner; the lower-right corner is unchanged. -/
def sub (m : Matrix) (sx sy : Nat) : Matrix :=
  { m with startX := m.startX + sx, startY := m.startY + sy }

/-- Modelled from the spec: exchange two rows cell-wise across the window's
columns. -/
def swap_rows (m : Matrix) (r1 r2 : Nat) : Matrix :=
  m.cols.foldl (fun mm col =>
    let t := mm.value r1 col
    (mm.set_value r1 col (mm.value r2 col)).set_value r2 col t) m

/-- Modelled from the spec: scale every cell of row `r` by `k` across the
window's columns. -/
def multiply_row (m : Matrix) (r : Nat) (k : ℚ) : Matrix :=
  m.cols.foldl (fun mm col => mm.set_value r col (mm.value r col * k)) m

/-- Modelled from the spec: `add_row(src, dest, k)`: `dest ← dest + k·src`,
cell-wise across the window's columns. -/
def add_row (m : Matrix) (src dest : Nat) (k : ℚ) : Matrix :=
  m.cols.foldl (fun mm col => mm.set_value dest col (mm.value dest col + k * mm.value src col)) m

/-- Modelled from the spec: true iff some window row has every window cell
exactly 0. -/
def has_zero_row (m : Matrix) : Bool :=
  m.rows.any (fun r => m.cols.all (fun c => m.value r c == 0))

end Matrix

/-- Write the values `vals` consecutively into `acc` starting at index
`base` (the `for (col, value) in expr.iter() { coeffs[col + base] = value }`
loops of the matrix builders, with the dense expression model). -/
def write_coeffs : Nat → List ℚ → List ℚ → List ℚ
  | _, [], acc => acc
  | base, v :: vs, acc => write_coeffs (base + 1) vs (acc.set base v)

namespace gaussian

/-- Fill the augmented rows for `gaussian::setup_matrix`, rejecting
non-equality constraints (from `gaussian_elimination.rs`, lines 39-52). -/
def fill_rows (width : Nat) : List Constraint → Nat → List ℚ → SolveResult (List ℚ)
  | [], _, acc => .ok acc
  | c :: rest, row, acc =>
    match c.kind with
    | .greaterThanOrEqualTo | .lessThanOrEqualTo =>
      .err ⟨.invalidConstraint, "Gaussian elimination only accepts equality constraints."⟩
    | .equalTo =>
      let acc := write_coeffs (row * width) c.expr acc
      let acc := acc.set (width - 1 + row * width) c.constant
      fill_rows width rest (row + 1) acc

/-- `gaussian_elimination::setup_matrix` (`gaussian_elimination.rs`,
lines 21-55). -/
def setup_matrix (p : Problem) : SolveResult Matrix :=
  if p.objective.isSome then
    .err ⟨.invalidObjective, "Gaussian elimination does not accept an objective function."⟩
  else if p.constraints.length ≠ p.vars.length then
    .err ⟨.invalidConstraint, "Number of constraints must equal number of variables for gaussian elimination."⟩
  else
    let height := p.constraints.length
    let width := p.vars.length + 1
    (fill_rows width p.constraints 0 (List.replicate (width * height) 0)).bind fun coeffs =>
      .ok (Matrix.new_gaussian_elimination width height p.vars.length coeffs)

/-- `find_pivot_max` (`gaussian_elimination.rs`, lines 114-125): among the
window rows from `cur_pivot_row` down, the first row with maximum absolute
value in `pivot_col`, defaulting to `cur_pivot_row` when all are 0. -/
def find_pivot_max (m : Matrix) (cur_pivot_row pivot_col : Nat) : Nat :=
  ((m.rows_from cur_pivot_row).foldl (fun acc row =>
    let cur := |m.value row pivot_col|
    if acc.1 < cur then (cur, row) else acc) ((0 : ℚ), cur_pivot_row)).2

/-- One row elimination below the pivot (`gaussian_elimination.rs`,
lines 73-81). -/
def eliminate_below (m : Matrix) (pivot_row pivot_col : Nat) : Matrix :=
  (m.rows_from (pivot_row + 1)).foldl (fun mm row =>
    let coeff := mm.value row pivot_col / mm.value pivot_row pivot_col
    let mm := mm.set_value row pivot_col 0
    (mm.cols_from (pivot_col + 1)).foldl (fun m2 col =>
      m2.set_value row col (m2.value row col - m2.value pivot_row col * coeff)) mm) m

/-- The forward-reduction loop of `gaussian_elimination` (lines 65-93),
with explicit fuel.  The pivot column advances on every iteration, so the
loop runs at most `width` times; the function is always invoked with
`fuel = width - pivot_col`, making the fuel-exhausted branch coincide with
the loop's exit condition. -/
def forward : Nat → Matrix → Nat → Nat → SolveResult Matrix
  | 0, m, _, _ => .ok m
  | fuel + 1, m, pivot_row, pivot_col =>
    if pivot_row < m.height ∧ pivot_col < m.width then
      let pivot_max := find_pivot_max m pivot_row pivot_col
      let next :=
        if m.value pivot_max pivot_col = 0 then (m, pivot_row, pivot_col + 1)
        else
          let m1 := m.swap_rows pivot_row pivot_max
          (eliminate_below m1 pivot_row pivot_col, pivot_row + 1, pivot_col + 1)
      if next.1.has_zero_row then
        .err ⟨.underspecified, "Two or more rows are linearly dependent."⟩
      else
        forward fuel next.1 next.2.1 next.2.2
    else .ok m

/-- Back substitution (`gaussian_elimination.rs`, lines 95-107). -/
def back_substitute (m : Matrix) : List ℚ :=
  m.rows.reverse.foldl (fun cs row =>
    let c0 := m.value row m.last_col
    let c1 := (m.cols_range (row + 1) m.last_col).foldl
      (fun acc col => acc - m.value row col * cs.getD col 0) c0
    cs.set row (c1 / m.value row row)) (List.replicate m.height 0)

/-- `gaussian_elimination` (`gaussian_elimination.rs`, lines 57-112). -/
def gaussian_elimination (m : Matrix) : SolveResult Solution :=
  (forward m.width m m.first_row m.first_col).bind fun m' =>
    .ok ⟨back_substitute m', none⟩

/-- Modelled from the spec: the missing `gaussian_elimination::solve`
entry point called by the dispatcher — set up the augmented matrix, then
run the elimination (spec section 4.2). -/
def solve (p : Problem) : SolveResult Solution :=
  (setup_matrix p).bind gaussian_elimination

end gaussian

namespace brute

/-- `Var` from `brute.rs`: current value plus its `Bound` (min, max),
flattened. -/
structure BVar where
  value : Int
  min : Int
  max : Int
deriving DecidableEq, Repr

/-- `Constraint` from `brute.rs` in dense vector form. -/
structure BConstraint where
  coeffs : List ℚ
  kind : ConstraintKind
  constant : ℚ
deriving DecidableEq, Repr

/-- `Objective` from `brute.rs` in dense vector form. -/
structure BObjective where
  coeffs : List ℚ
  kind : ObjectiveKind
deriving DecidableEq, Repr

/-- The mutable state of the brute-force search: the best solution found,
its objective value, and the current variable assignment. -/
structure BState where
  solution : List Int
  best : ℚ
  vars : List BVar
deriving DecidableEq, Repr

/-- `get_constraint_value` (`brute.rs`, lines 167-174): Σ valueᵢ · coeffᵢ. -/
def get_constraint_value (vars : List BVar) (coeffs : List ℚ) : ℚ :=
  (List.zipWith (fun (v : BVar) c => (v.value : ℚ) * c) vars coeffs).sum

/-- `meets_constraints` (`brute.rs`, lines 148-165): every constraint is
satisfied under the tolerance `tol = f32::EPSILON as f64`. -/
def meets_constraints (vars : List BVar) (cs : List BConstraint) : Bool :=
  cs.all fun c =>
    let computed := get_constraint_value vars c.coeffs
    match c.kind with
    | .greaterThanOrEqualTo => decide (c.constant - f32Eps < computed)
    | .equalTo => decide (|computed - c.constant| < f32Eps)
    | .lessThanOrEqualTo => decide (computed < c.constant + f32Eps)

/-- The inclusive integer range `min..=max` as a list (empty when
`max < min`). -/
def intRange (mn mx : Int) : List Int :=
  (List.range (mx + 1 - mn).toNat).map (fun i : Nat => mn + (i : Int))

/-- The assignment-and-update part of one iteration of the value sweep in
`check_combinations` (`brute.rs`, lines 120-139): set variable `cur` to
`val`, and if the assignment meets every constraint and its objective
value is strictly better than the current best, record it. -/
def bupd (cs : List BConstraint) (obj : BObjective) (cur : Nat)
    (st1 : BState) (val : Int) : BState :=
  let st2 : BState :=
    { st1 with vars := st1.vars.modify (fun w => { w with value := val }) cur }
  if meets_constraints st2.vars cs then
    let test := get_constraint_value st2.vars obj.coeffs
    let isBest : Bool := match obj.kind with
      | .minimize => decide (test < st2.best)
      | .maximize => decide (st2.best < test)
    if isBest then
      { st2 with best := test, solution := st2.vars.map (fun w => w.value) }
    else st2
  else st2

/-- `check_combinations` (`brute.rs`, lines 112-146): recursive sweep over
the variables' ranges, testing every assignment and keeping the strictly
best feasible one.  The recursion depth is `vars.length - cur_index`, so
the fuel parameter is always sufficient at the call site
(`fuel = vars.length`, `cur_index = 0`). -/
def check_combinations (cs : List BConstraint) (obj : BObjective) :
    Nat → Nat → BState → BState
  | 0, _, st => st
  | fuel + 1, cur, st =>
    match st.vars.get? cur with
    | none => st
    | some v =>
      (intRange v.min v.max).foldl (fun st1 val =>
        let st3 : BState := bupd cs obj cur st1 val
        if cur < st3.vars.length - 1 then check_combinations cs obj fuel (cur + 1) st3
        else st3) st

/-- One full iteration of the value sweep at level `cur` (the body of the
`for val in min..=max` loop of `check_combinations`, including the
recursive descent); `check_combinations (fuel+1)` is definitionally the
fold of this step. -/
def bstep (cs : List BConstraint) (obj : BObjective) (fuel cur : Nat)
    (st1 : BState) (val : Int) : BState :=
  let st3 : BState := bupd cs obj cur st1 val
  if cur < st3.vars.length - 1 then check_combinations cs obj fuel (cur + 1) st3
  else st3

/-- The dense bounds of a problem's variables as built in `brute::solve`
(`brute.rs`, lines 55-60): continuous variables get bounds `[0, 0]`. -/
def boundsOf (p : Problem) : List (Int × Int) :=
  p.vars.map fun k => match k with
    | .continuous => ((0 : Int), (0 : Int))
    | .integer mn mx => (mn, mx)

/-- The dense constraints as built in `brute::solve` (lines 62-73). -/
def constraintsOf (p : Problem) : List BConstraint :=
  p.constraints.map fun c =>
    ⟨(List.range p.vars.length).map c.expr.get, c.kind, c.constant⟩

/-- The dense objective coefficients as built in `brute::solve`
(lines 76-79). -/
def objCoeffsOf (p : Problem) (objExpr : Expression) : List ℚ :=
  (List.range p.vars.length).map objExpr.get

/-- The sentinel initial best value (`brute.rs`, lines 87-90):
`f64::MIN` for Maximize, `f64::MAX` for Minimize. -/
def sentinel (kind : ObjectiveKind) : ℚ :=
  match kind with
  | .maximize => f64Min
  | .minimize => f64Max

/-- The initial search state of `brute::solve` (`brute.rs`, lines 86-98):
solution all zeros, best at the sentinel, every variable at its lower
bound. -/
def init_state (p : Problem) (objKind : ObjectiveKind) : BState :=
  ⟨List.replicate p.vars.length 0, sentinel objKind,
    (boundsOf p).map fun b => (⟨b.1, b.1, b.2⟩ : BVar)⟩

/-- The state after the full `check_combinations` search in
`brute::solve` (line 101). -/
def final_state (p : Problem) (objExpr : Expression) (objKind : ObjectiveKind) : BState :=
  check_combinations (constraintsOf p) ⟨objCoeffsOf p objExpr, objKind⟩
    p.vars.length 0 (init_state p objKind)

/-- `brute::solve` (`brute.rs`, lines 49-110). -/
def solve (p : Problem) : SolveResult Solution :=
  match p.objective with
  | none => .err ⟨.invalidObjective, "Must set an objective for Integer problems."⟩
  | some (objExpr, objKind) =>
    let st := final_state p objExpr objKind
    if sentinel objKind = st.best then .err ⟨.infeasible, "No Solution exists."⟩
    else .ok ⟨st.solution.map (fun i : Int => (i : ℚ)), some st.best⟩

end brute

namespace simplex

/-- One step of the pivot-column scan (the loop body of
`select_pivot_column` from `simplex.rs`, lines 196-212). -/
def spc_step (m : Matrix) (kind : ObjectiveKind) (acc : Option Nat × ℚ) (col : Nat) :
    Option Nat × ℚ :=
  let value := m.value m.first_row col
  match kind with
  | .minimize => if acc.2 < value then (some col, value) else acc
  | .maximize => if value < acc.2 then (some col, value) else acc

/-- `select_pivot_column` (`simplex.rs`, lines 192-215): scan the objective
row over the window columns strictly between the first and the last
column; Minimize picks the largest strictly positive entry, Maximize the
smallest strictly negative entry; first encountered wins on ties. -/
def select_pivot_column (m : Matrix) (kind : ObjectiveKind) : Option Nat :=
  ((m.cols_range (m.first_col + 1) m.last_col).foldl (spc_step m kind)
    ((none : Option Nat), (0 : ℚ))).1

/-- One step of the min-ratio scan (the loop body of `select_pivot_row`
from `simplex.rs`, lines 221-233). -/
def spr_step (m : Matrix) (pivot_col : Nat) (acc : Option Nat × ℚ) (row : Nat) :
    Option Nat × ℚ :=
  let value := m.value row pivot_col
  if value ≤ 0 then acc
  else
    let ratio := m.value row m.last_col / value
    if ratio < 0 then acc
    else if ratio < acc.2 then (some row, ratio) else acc

/-- `select_pivot_row` (`simplex.rs`, lines 217-236): min-ratio test over
the window rows below the top `num_rows_skip` ones, starting from the
sentinel `min = f64::MAX`. -/
def select_pivot_row (m : Matrix) (pivot_col num_rows_skip : Nat) : Option Nat :=
  ((m.rows_from (m.first_row + num_rows_skip)).foldl (spr_step m pivot_col)
    ((none : Option Nat), f64Max)).1

/-- `simplex_pivot` (`simplex.rs`, lines 238-250). -/
def simplex_pivot (m : Matrix) (pivot_row pivot_col : Nat) : Matrix :=
  let pivot_recip := 1 / m.value pivot_row pivot_col
  let m1 := m.multiply_row pivot_row pivot_recip
  m1.rows.foldl (fun mm row =>
    if row = pivot_row then mm
    else mm.add_row pivot_row row (-1 * mm.value row pivot_col)) m1

/-- The inner Simplex loop of `simplex` (`simplex.rs`, lines 121-150),
with the iteration counter expressed as fuel: the source counts
`iteration` up from 0 and bails out with UnableToSolve at
`iteration >= width * height`; here `fuel = width * height - iteration`
(pivoting preserves the matrix dimensions, so the bound is constant). -/
def go (num_rows_skip : Nat) (kind : ObjectiveKind) :
    Nat → Matrix → SolveResult Matrix
  | 0, _ => .err ⟨.unableToSolve, "Failed to find solution"⟩
  | fuel + 1, m =>
    match select_pivot_column m kind with
    | none => .ok m
    | some pivot_col =>
      match select_pivot_row m pivot_col num_rows_skip with
      | none => .err ⟨.infeasible, "Function is unbounded."⟩
      | some pivot_row => go num_rows_skip kind fuel (simplex_pivot m pivot_row pivot_col)

/-- `produce_solution` (`simplex.rs`, lines 157-190): the objective is the
window's top-right cell; a variable column with exactly one non-zero entry
contributes that row's RHS, every other column contributes 0. -/
def produce_solution (m : Matrix) (num_variables : Nat) : Solution :=
  let coeffs := (m.cols_range (m.first_col + 1) (m.first_col + 1 + num_variables)).map
    fun col =>
      match m.rows.filter (fun row => decide (m.value row col ≠ 0)) with
      | [row] => m.value row m.last_col
      | _ => 0
  ⟨coeffs, some (m.value m.first_row m.last_col)⟩

/-- `simplex` (`simplex.rs`, lines 115-155): run the loop, then extract
the solution. -/
def simplex (m : Matrix) (num_variables num_objective_rows : Nat)
    (kind : ObjectiveKind) : SolveResult Solution :=
  (go num_objective_rows kind (m.width * m.height) m).bind fun m' =>
    .ok (produce_solution m' num_variables)

/-- `simplex::setup_matrix` (`simplex.rs`, lines 60-113): the two-phase
tableau with slack and artificial columns. -/
def setup_matrix (p : Problem) : SolveResult (Matrix × Nat) :=
  let height := p.constraints.length + 2
  let width := p.vars.length + p.constraints.length + 3
  let coeffs := p.constraints.enum.foldl (fun acc pair =>
    let row := pair.1 + 2
    let c := pair.2
    let neg : ℚ := if c.constant < 0 then -1 else 1
    let acc := write_coeffs (2 + row * width) (c.expr.map (· * neg)) acc
    acc.set (width - 1 + row * width) (c.constant * neg))
    (List.replicate (width * height) 0)
  let coeffs := coeffs.set 0 1
  let coeffs := match p.objective with
    | some (e, _) =>
      (write_coeffs (2 + width) (e.map (· * -1)) coeffs).set (1 + width) 1
    | none => coeffs
  let matrix := Matrix.new width height coeffs
  let slack_start := p.vars.length + 2
  let result := p.constraints.enum.foldl (fun (acc : Matrix × Nat) pair =>
    let i := pair.1
    let vk : ℚ × Bool := match pair.2.kind with
      | .lessThanOrEqualTo => (1, false)
      | .greaterThanOrEqualTo => (-1, false)
      | .equalTo => (1, true)
    let m1 := acc.1.set_value_raw (i + 2) (i + slack_start) vk.1
    if vk.2 then
      (((m1.set_value_raw 0 (i + slack_start) (-1)).add_row (i + 2) 0 1), acc.2 + 1)
    else (m1, acc.2)) (matrix, 0)
  .ok result

/-- `simplex::solve` (`simplex.rs`, lines 26-58): Phase I (Minimize, two
objective rows), infeasibility check on the Phase-I residual, window
narrowing, artificial-column zeroing, Phase II. -/
def solve (p : Problem) : SolveResult Solution :=
  match p.objective with
  | none => .err ⟨.invalidObjective, "Must set an objective for simplex."⟩
  | some (_, objective_kind) =>
    (setup_matrix p).bind fun pair =>
      let num_artificial := pair.2
      (go 2 .minimize (pair.1.width * pair.1.height) pair.1).bind fun m1 =>
        let phase1 := produce_solution m1 p.vars.length
        let infeasible1 : Bool := match phase1.objective with
          | some v => decide ((1 : ℚ) / 1000000 < |v|)
          | none => false
        if infeasible1 then .err ⟨.infeasible, "No feasible solution exists."⟩
        else
          let m2 := (m1.sub 1 1)
          let lc := m2.last_col
          let m3 := m2.rows.foldl (fun mm row =>
            (mm.cols_range (lc - num_artificial) lc).foldl
              (fun mm2 col => mm2.set_value row col 0) mm) m2
          (go 1 objective_kind (m3.width * m3.height) m3).bind fun m4 =>
            .ok (produce_solution m4 p.vars.length)

end simplex

/-- Whether any declared variable is Integer-kinded; `Problem::solve`
computes this by folding over the variables (`problem.rs`, lines 346-351),
which is equivalent to `any`. -/
def Problem.any_integer (p : Problem) : Bool :=
  p.vars.any fun v => match v with
    | .integer _ _ => true
    | .continuous => false

/-- `Problem::solve` (`problem.rs`, lines 344-369): the engine dispatcher. -/
def Problem.solve (p : Problem) : SolveResult Solution :=
  match p.objective with
  | none =>
    if p.any_integer then
      .err ⟨.unableToSolve, "A mixed integer or integer problem must specify an objective."⟩
    else gaussian.solve p
  | some _ =>
    if p.any_integer then brute.solve p
    else simplex.solve p

/-- The linear value Σ xᵢ·coeffᵢ of a point against a coefficient vector. -/
def lin_value (xs coeffs : List ℚ) : ℚ := (List.zipWith (· * ·) xs coeffs).sum

/-- A list of integers viewed as a rational point (the
`solution.iter().map(|c| *c as f64)` conversion in `brute::solve`). -/
def int_point (w : List Int) : List ℚ := w.map fun i : Int => (i : ℚ)

/-- The brute-force tolerance rule of `meets_constraints`, stated on a
rational point: `tol = f32::EPSILON as f64`; `computed < constant + tol`
for ≤, `computed > constant − tol` for ≥, `|computed − constant| < tol`
for =. -/
def meets_point (xs : List ℚ) (cs : List brute.BConstraint) : Bool :=
  cs.all fun c =>
    let computed := lin_value xs c.coeffs
    match c.kind with
    | .greaterThanOrEqualTo => decide (c.constant - f32Eps < computed)
    | .equalTo => decide (|computed - c.constant| < f32Eps)
    | .lessThanOrEqualTo => decide (computed < c.constant + f32Eps)

/-- `a` is a strictly better objective value than `b` for direction `k`
(strictly smaller for Minimize, strictly larger for Maximize). -/
def ObjectiveKind.strictly_better (k : ObjectiveKind) (a b : ℚ) : Prop :=
  match k with
  | .minimize => a < b
  | .maximize => b < a

/-- `a` is at least as good an objective value as `b` for direction `k`. -/
def ObjectiveKind.not_worse (k : ObjectiveKind) (a b : ℚ) : Prop :=
  match k with
  | .minimize => a ≤ b
  | .maximize => b ≤ a

/-- An integer assignment lies within a list of inclusive bounds,
coordinate-wise. -/
def in_box (bounds : List (Int × Int)) (w : List Int) : Prop :=
  List.Forall₂ (fun b x => b.1 ≤ x ∧ x ≤ b.2) bounds w

namespace brute

/-- The (min, max) bounds carried by a brute-force search variable. -/
def BVar.bnds (v : BVar) : Int × Int := (v.min, v.max)

/-- Every search variable's current value lies within its own bounds. -/
def okVars (vars : List BVar) : Prop :=
  ∀ v ∈ vars, v.min ≤ v.value ∧ v.value ≤ v.max

/-- How one search state can evolve into another under
`check_combinations`: either the best value and stored solution are
untouched, or the stored solution is a feasible assignment whose
objective value is the (strictly improved) best. -/
def Rel (cs : List BConstraint) (obj : BObjective) (st st' : BState) : Prop :=
  (st'.best = st.best ∧ st'.solution = st.solution) ∨
  (meets_point (int_point st'.solution) cs = true ∧
   lin_value (int_point st'.solution) obj.coeffs = st'.best ∧
   obj.kind.strictly_better st'.best st.best)

end brute

namespace simplex

/-- The ratio tested by `select_pivot_row`:
`cell(row, last_col) / cell(row, pivot_col)`. -/
def spr_ratio (m : Matrix) (pivot_col row : Nat) : ℚ :=
  m.value row m.last_col / m.value row pivot_col

/-- A row is a candidate for the min-ratio test: strictly positive pivot
column entry and non-negative ratio. -/
def spr_candidate (m : Matrix) (pivot_col row : Nat) : Prop :=
  0 < m.value row pivot_col ∧ 0 ≤ spr_ratio m pivot_col row

/-- The number of pivots the inner Simplex loop `go` performs, mirroring
its recursion (fuel counts the remaining allowed iterations,
`fuel = W·H − iteration`). -/
def count_pivots (num_rows_skip : Nat) (kind : ObjectiveKind) :
    Nat → Matrix → Nat
  | 0, _ => 0
  | fuel + 1, m =>
    match select_pivot_column m kind with
    | none => 0
    | some pivot_col =>
      match select_pivot_row m pivot_col num_rows_skip with
      | none => 0
      | some pivot_row =>
        1 + count_pivots num_rows_skip kind fuel (simplex_pivot m pivot_row pivot_col)

end simplex

/-- The dispatch table of spec section 4.5, written from the spec's words:
no objective and all-continuous → Gaussian; no objective and some integer
variable → UnableToSolve; objective and all-continuous → Simplex;
objective and some integer variable → brute force.  (With the two-valued
kind, "at least one variable is Integer" is the negation of "every
variable is Continuous".) -/
def dispatch_spec (p : Problem) : SolveResult Solution :=
  match p.objective with
  | none =>
    if ∀ v ∈ p.vars, v = VariableKind.continuous then gaussian.solve p
    else .err ⟨.unableToSolve, "A mixed integer or integer problem must specify an objective."⟩
  | some _ =>
    if ∀ v ∈ p.vars, v = VariableKind.continuous then simplex.solve p
    else brute.solve p

/-! ## Theorems -/

theorem any_integer_false_iff (p : Problem) :
    p.any_integer = false ↔ ∀ v ∈ p.vars, v = VariableKind.continuous := by
  simp only [Problem.any_integer, List.any_eq_false]
  constructor
  · intro h v hv
    have hf := h v hv
    cases v with
    | continuous => rfl
    | integer mn mx => simp at hf
  · intro h v hv
    have hv2 := h v hv
    subst hv2
    simp

theorem count_pivots_le (skip : Nat) (kind : ObjectiveKind) :
    ∀ fuel m, simplex.count_pivots skip kind fuel m ≤ fuel := by
  intro fuel
  induction fuel with
  | zero => intro m; simp [simplex.count_pivots]
  | succ n ih =>
    intro m
    simp only [simplex.count_pivots]
    split
    · exact Nat.zero_le _
    · split
      · exact Nat.zero_le _
      · rw [Nat.add_comm]
        exact Nat.succ_le_succ (ih _)

/-- C1: `Problem::solve` dispatches on problem shape exactly as specified:
no objective and all variables Continuous → Gaussian elimination; no
objective and some Integer variable → UnableToSolve; objective and all
Continuous → Simplex; objective and some Integer variable → brute force
(stated as equality with the spec-side dispatch table `dispatch_spec`;
with the two-valued variable kind, "at least one Integer" is exactly the
negation of "every variable Continuous"). -/
theorem solve_dispatches_by_shape (p : Problem) : p.solve = dispatch_spec p := by
  by_cases hall : ∀ v ∈ p.vars, v = VariableKind.continuous
  · have hfalse : p.any_integer = false := (any_integer_false_iff p).mpr hall
    cases hobj : p.objective with
    | none => simp only [Problem.solve, dispatch_spec, hobj, hfalse]; rw [if_pos hall]; rfl
    | some o => simp only [Problem.solve, dispatch_spec, hobj, hfalse]; rw [if_pos hall]; rfl
  · have htrue : p.any_integer = true := by
      cases h : p.any_integer with
      | false => exact absurd ((any_integer_false_iff p).mp h) hall
      | true => rfl
    cases hobj : p.objective with
    | none => simp only [Problem.solve, dispatch_spec, hobj, htrue]; rw [if_neg hall]; rfl
    | some o => simp only [Problem.solve, dispatch_spec, hobj, htrue]; rw [if_neg hall]; rfl

/-- C2: solving the 3-variable, no-objective problem with equality rows
(2,1,1)=3, (1,0,1)=1.5, (2,1,0)=2 succeeds with x0 = 1/2, x1 = 1, x2 = 1
and objective `none`, both through the dispatcher (which selects Gaussian
elimination) and through the Gaussian engine directly. -/
theorem gaussian_simple_3x3 :
    Problem.solve ⟨[.continuous, .continuous, .continuous],
      [⟨[2, 1, 1], .equalTo, 3⟩, ⟨[1, 0, 1], .equalTo, 3 / 2⟩, ⟨[2, 1, 0], .equalTo, 2⟩],
      none⟩ = .ok ⟨[1 / 2, 1, 1], none⟩ := by
  decide

/-- C6: the inner Simplex loop always terminates — it performs at most
`W·H` pivots (`count_pivots`, which mirrors the recursion of `go`, is
bounded by the initial fuel `W·H`), and when the iteration budget is
exhausted (`fuel = 0`, i.e. the source's counter reached `W·H`) it fails
with UnableToSolve instead of looping further. -/
theorem simplex_loop_terminates (skip : Nat) (kind : ObjectiveKind) (m : Matrix) :
    simplex.count_pivots skip kind (m.width * m.height) m ≤ m.width * m.height ∧
    simplex.go skip kind 0 m = .err ⟨.unableToSolve, "Failed to find solution"⟩ :=
  ⟨count_pivots_le skip kind (m.width * m.height) m, rfl⟩

/-- C9 counterexample: a problem with one integer variable and no
objective makes `brute::solve` fail with kind InvalidObjective, not
UnableToSolve as the claim states. -/
theorem brute_no_objective_counterexample :
    brute.solve ⟨[VariableKind.integer 0 1], [], none⟩ =
      .err ⟨.invalidObjective, "Must set an objective for Integer problems."⟩ ∧
    SolverErrorKind.invalidObjective ≠ SolverErrorKind.unableToSolve := by
  constructor
  · rfl
  · decide

/-- C9 (amended): for every problem passed to the brute-force engine with
no objective set, the engine fails with an error of kind InvalidObjective
(the dispatcher, not the engine, produces UnableToSolve for integer
problems without an objective). -/
theorem brute_no_objective_error (p : Problem) (h : p.objective = none) :
    brute.solve p = .err ⟨.invalidObjective, "Must set an objective for Integer problems."⟩ := by
  unfold brute.solve
  rw [h]

theorem brute_no_objective_error_witness :
    brute.solve ⟨[VariableKind.integer 0 1], [], none⟩ =
      .err ⟨.invalidObjective, "Must set an objective for Integer problems."⟩ :=
  brute_no_objective_error ⟨[VariableKind.integer 0 1], [], none⟩ rfl

theorem write_coeffs_cons (vals : List ℚ) :
    ∀ (b : Nat) (a : ℚ) (acc : List ℚ),
      write_coeffs (b + 1) vals (a :: acc) = a :: write_coeffs b vals acc := by
  induction vals with
  | nil => intro b a acc; rfl
  | cons v vs ih =>
    intro b a acc
    show write_coeffs (b + 2) vs ((a :: acc).set (b + 1) v) =
      a :: write_coeffs (b + 1) vs (acc.set b v)
    exact ih (b + 1) a (acc.set b v)

theorem write_coeffs_append (pre : List ℚ) :
    ∀ (vals suf : List ℚ),
      write_coeffs pre.length vals (pre ++ suf) = pre ++ write_coeffs 0 vals suf := by
  induction pre with
  | nil => intro vals suf; rfl
  | cons a rest ih =>
    intro vals suf
    show write_coeffs (rest.length + 1) vals (a :: (rest ++ suf)) =
      a :: (rest ++ write_coeffs 0 vals suf)
    rw [write_coeffs_cons, ih]

theorem write_coeffs_fill (vals : List ℚ) :
    ∀ suf : List ℚ, vals.length ≤ suf.length →
      write_coeffs 0 vals suf = vals ++ suf.drop vals.length := by
  induction vals with
  | nil => intro suf _; simp [write_coeffs]
  | cons v vs ih =>
    intro suf hlen
    cases suf with
    | nil => simp at hlen
    | cons s ss =>
      show write_coeffs 1 vs ((s :: ss).set 0 v) = (v :: vs) ++ (s :: ss).drop (vs.length + 1)
      have : (s :: ss).set 0 v = v :: ss := rfl
      rw [this]
      have h2 : write_coeffs (0 + 1) vs (v :: ss) = v :: write_coeffs 0 vs ss :=
        write_coeffs_cons vs 0 v ss
      simp only [Nat.zero_add] at h2
      rw [h2, ih ss (by simpa using hlen)]
      simp

theorem set_append_length (pre : List ℚ) :
    ∀ (l : List ℚ) (n : Nat) (v : ℚ),
      (pre ++ l).set (pre.length + n) v = pre ++ l.set n v := by
  induction pre with
  | nil => intro l n v; simp
  | cons a rest ih =>
    intro l n v
    have hx : (a :: rest).length + n = (rest.length + n) + 1 := by
      simp
      omega
    rw [hx]
    show a :: (rest ++ l).set (rest.length + n) v = a :: (rest ++ l.set n v)
    rw [ih]

theorem fill_rows_err (width : Nat) :
    ∀ (cs : List Constraint) (row : Nat) (acc : List ℚ),
      (∃ c ∈ cs, c.kind ≠ ConstraintKind.equalTo) →
      gaussian.fill_rows width cs row acc =
        .err ⟨.invalidConstraint, "Gaussian elimination only accepts equality constraints."⟩ := by
  intro cs
  induction cs with
  | nil => intro row acc h; simp at h
  | cons c rest ih =>
    intro row acc h
    rcases c with ⟨ce, ck, cc⟩
    cases ck with
    | greaterThanOrEqualTo => rfl
    | lessThanOrEqualTo => rfl
    | equalTo =>
      rcases h with ⟨c', hc', hne⟩
      rcases List.mem_cons.mp hc' with heq | hmem
      · subst heq; simp at hne
      · show gaussian.fill_rows width rest (row + 1)
            ((write_coeffs (row * width) ce acc).set (width - 1 + row * width) cc) = _
        exact ih (row + 1) _ ⟨c', hmem, hne⟩

theorem fill_rows_ok (width : Nat) :
    ∀ (cs : List Constraint) (row : Nat) (pre : List ℚ),
      (∀ c ∈ cs, c.kind = ConstraintKind.equalTo) →
      (∀ c ∈ cs, c.expr.length + 1 = width) →
      pre.length = row * width →
      gaussian.fill_rows width cs row (pre ++ List.replicate (cs.length * width) 0) =
        .ok (pre ++ (cs.map fun c => c.expr ++ [c.constant]).flatten) := by
  intro cs
  induction cs with
  | nil => intro row pre _ _ _; simp [gaussian.fill_rows]
  | cons c rest ih =>
    intro row pre hk hl hpre
    have hkc : c.kind = ConstraintKind.equalTo := hk c (by simp)
    have hlc : c.expr.length + 1 = width := hl c (by simp)
    rcases c with ⟨ce, ck, cc⟩
    simp only at hkc hlc
    subst hkc
    have hsplit : List.replicate ((⟨ce, ConstraintKind.equalTo, cc⟩ :: rest : List Constraint).length * width) (0 : ℚ) =
        List.replicate width 0 ++ List.replicate (rest.length * width) 0 := by
      rw [← List.replicate_add]
      congr 1
      simp
      ring
    simp only [gaussian.fill_rows]
    rw [hsplit]
    have hbase : row * width = pre.length := hpre.symm
    rw [hbase, write_coeffs_append pre ce
      (List.replicate width 0 ++ List.replicate (rest.length * width) 0)]
    have hfill : write_coeffs 0 ce
        (List.replicate width 0 ++ List.replicate (rest.length * width) 0) =
        ce ++ ((0 : ℚ) :: List.replicate (rest.length * width) 0) := by
      rw [write_coeffs_fill ce _ (by simp; omega)]
      congr 1
      rw [List.drop_append_of_le_length (by simp; omega), List.drop_replicate]
      have h1 : width - ce.length = 1 := by omega
      rw [h1]
      rfl
    rw [hfill]
    have hidx : width - 1 + pre.length = (pre ++ ce).length + 0 := by
      simp
      omega
    rw [hidx, ← List.append_assoc]
    rw [set_append_length (pre ++ ce) ((0 : ℚ) :: List.replicate (rest.length * width) 0) 0 cc]
    have hset : ((0 : ℚ) :: List.replicate (rest.length * width) 0).set 0 cc =
        cc :: List.replicate (rest.length * width) 0 := rfl
    rw [hset]
    have hacc : (pre ++ ce) ++ cc :: List.replicate (rest.length * width) (0 : ℚ) =
        (pre ++ (ce ++ [cc])) ++ List.replicate (rest.length * width) 0 := by
      simp
    rw [hacc, ih (row + 1) (pre ++ (ce ++ [cc]))
      (fun c hc => hk c (by simp [hc]))
      (fun c hc => hl c (by simp [hc]))
      (by simp [Nat.succ_mul]; omega)]
    simp

/-- C8: Gaussian-elimination setup rejects exactly the specified shapes:
an objective → InvalidObjective; constraint count ≠ variable count →
InvalidConstraint; a non-equality constraint → InvalidConstraint;
otherwise (for well-formed constraints whose expressions cover all N
variables) it succeeds and builds the (N+1)-wide, N-high augmented matrix
whose row i is constraint i's coefficients followed by its constant. -/
theorem gaussian_setup_shapes (p : Problem) :
    (p.objective.isSome = true →
      gaussian.setup_matrix p =
        .err ⟨.invalidObjective, "Gaussian elimination does not accept an objective function."⟩) ∧
    (p.objective = none → p.constraints.length ≠ p.vars.length →
      gaussian.setup_matrix p =
        .err ⟨.invalidConstraint,
          "Number of constraints must equal number of variables for gaussian elimination."⟩) ∧
    (p.objective = none → p.constraints.length = p.vars.length →
      (∃ c ∈ p.constraints, c.kind ≠ ConstraintKind.equalTo) →
      gaussian.setup_matrix p =
        .err ⟨.invalidConstraint, "Gaussian elimination only accepts equality constraints."⟩) ∧
    (p.objective = none → p.constraints.length = p.vars.length →
      (∀ c ∈ p.constraints, c.kind = ConstraintKind.equalTo) →
      (∀ c ∈ p.constraints, c.expr.length = p.vars.length) →
      gaussian.setup_matrix p =
        .ok ⟨p.vars.length + 1, p.vars.length, 0, 0,
          (p.constraints.map fun c => c.expr ++ [c.constant]).flatten⟩) := by
  refine ⟨?_, ?_, ?_, ?_⟩
  · intro hs
    unfold gaussian.setup_matrix
    rw [if_pos hs]
  · intro hn hne
    unfold gaussian.setup_matrix
    rw [hn]
    simp only [Option.isSome_none, Bool.false_eq_true, if_false]
    rw [if_pos hne]
  · intro hn heq hex
    unfold gaussian.setup_matrix
    rw [hn]
    simp only [Option.isSome_none, Bool.false_eq_true, if_false]
    rw [if_neg (by omega)]
    rw [fill_rows_err (p.vars.length + 1) p.constraints 0 _ hex]
    rfl
  · intro hn heq hk hw
    unfold gaussian.setup_matrix
    rw [hn]
    simp only [Option.isSome_none, Bool.false_eq_true, if_false]
    rw [if_neg (by omega)]
    have hrep : List.replicate ((p.vars.length + 1) * p.constraints.length) (0 : ℚ) =
        ([] : List ℚ) ++ List.replicate (p.constraints.length * (p.vars.length + 1)) 0 := by
      simp [Nat.mul_comm]
    rw [hrep, fill_rows_ok (p.vars.length + 1) p.constraints 0 [] hk
      (fun c hc => by rw [hw c hc]) (by simp)]
    simp only [List.nil_append, SolveResult.bind]
    unfold Matrix.new_gaussian_elimination
    rw [heq]

theorem gaussian_setup_shapes_witness :
    gaussian.setup_matrix ⟨[.continuous, .continuous],
      [⟨[1, 0], .equalTo, 1⟩, ⟨[0, 1], .equalTo, 2⟩], none⟩ =
      .ok ⟨3, 2, 0, 0, [1, 0, 1, 0, 1, 2]⟩ := by
  have h := (gaussian_setup_shapes ⟨[.continuous, .continuous],
    [⟨[1, 0], .equalTo, 1⟩, ⟨[0, 1], .equalTo, 2⟩], none⟩).2.2.2
    rfl rfl (by decide) (by decide)
  simpa using h

theorem spc_fold_mono_min (m : Matrix) :
    ∀ (l : List Nat) (acc : Option Nat × ℚ),
      acc.2 ≤ (l.foldl (simplex.spc_step m .minimize) acc).2 := by
  intro l
  induction l with
  | nil => intro acc; exact le_refl _
  | cons a t ih =>
    intro acc
    refine le_trans ?_ (ih (simplex.spc_step m .minimize acc a))
    simp only [simplex.spc_step]
    split
    · exact le_of_lt (by assumption)
    · exact le_refl _

theorem spc_fold_ub_min (m : Matrix) :
    ∀ (l : List Nat) (acc : Option Nat × ℚ) (c : Nat), c ∈ l →
      m.value m.first_row c ≤ (l.foldl (simplex.spc_step m .minimize) acc).2 := by
  intro l
  induction l with
  | nil => intro acc c hc; simp at hc
  | cons a t ih =>
    intro acc c hc
    rcases List.mem_cons.mp hc with heq | hmem
    · subst heq
      refine le_trans ?_ (spc_fold_mono_min m t (simplex.spc_step m .minimize acc c))
      simp only [simplex.spc_step]
      split
      · exact le_refl _
      · exact le_of_not_lt (by assumption)
    · exact ih (simplex.spc_step m .minimize acc a) c hmem

theorem spc_fold_cases_min (m : Matrix) :
    ∀ (l : List Nat) (acc : Option Nat × ℚ),
      l.foldl (simplex.spc_step m .minimize) acc = acc ∨
      ∃ c ∈ l, l.foldl (simplex.spc_step m .minimize) acc =
        (some c, m.value m.first_row c) ∧ acc.2 < m.value m.first_row c := by
  intro l
  induction l with
  | nil => intro acc; left; rfl
  | cons a t ih =>
    intro acc
    rw [List.foldl_cons]
    by_cases h : acc.2 < m.value m.first_row a
    · have hstep : simplex.spc_step m .minimize acc a = (some a, m.value m.first_row a) := by
        simp only [simplex.spc_step]
        rw [if_pos h]
      rw [hstep]
      rcases ih (some a, m.value m.first_row a) with heq | ⟨c, hc, heq, hlt⟩
      · right
        exact ⟨a, List.mem_cons_self a t, heq, h⟩
      · right
        exact ⟨c, List.mem_cons_of_mem a hc, heq, lt_trans h hlt⟩
    · have hstep : simplex.spc_step m .minimize acc a = acc := by
        simp only [simplex.spc_step]
        rw [if_neg h]
      rw [hstep]
      rcases ih acc with heq | ⟨c, hc, heq, hlt⟩
      · left; exact heq
      · right; exact ⟨c, List.mem_cons_of_mem a hc, heq, hlt⟩

theorem spc_fold_mono_max (m : Matrix) :
    ∀ (l : List Nat) (acc : Option Nat × ℚ),
      (l.foldl (simplex.spc_step m .maximize) acc).2 ≤ acc.2 := by
  intro l
  induction l with
  | nil => intro acc; exact le_refl _
  | cons a t ih =>
    intro acc
    refine le_trans (ih (simplex.spc_step m .maximize acc a)) ?_
    simp only [simplex.spc_step]
    split
    · exact le_of_lt (by assumption)
    · exact le_refl _

theorem spc_fold_ub_max (m : Matrix) :
    ∀ (l : List Nat) (acc : Option Nat × ℚ) (c : Nat), c ∈ l →
      (l.foldl (simplex.spc_step m .maximize) acc).2 ≤ m.value m.first_row c := by
  intro l
  induction l with
  | nil => intro acc c hc; simp at hc
  | cons a t ih =>
    intro acc c hc
    rcases List.mem_cons.mp hc with heq | hmem
    · subst heq
      refine le_trans (spc_fold_mono_max m t (simplex.spc_step m .maximize acc c)) ?_
      simp only [simplex.spc_step]
      split
      · exact le_refl _
      · exact le_of_not_lt (by assumption)
    · exact ih (simplex.spc_step m .maximize acc a) c hmem

theorem spc_fold_cases_max (m : Matrix) :
    ∀ (l : List Nat) (acc : Option Nat × ℚ),
      l.foldl (simplex.spc_step m .maximize) acc = acc ∨
      ∃ c ∈ l, l.foldl (simplex.spc_step m .maximize) acc =
        (some c, m.value m.first_row c) ∧ m.value m.first_row c < acc.2 := by
  intro l
  induction l with
  | nil => intro acc; left; rfl
  | cons a t ih =>
    intro acc
    rw [List.foldl_cons]
    by_cases h : m.value m.first_row a < acc.2
    · have hstep : simplex.spc_step m .maximize acc a = (some a, m.value m.first_row a) := by
        simp only [simplex.spc_step]
        rw [if_pos h]
      rw [hstep]
      rcases ih (some a, m.value m.first_row a) with heq | ⟨c, hc, heq, hlt⟩
      · right
        exact ⟨a, List.mem_cons_self a t, heq, h⟩
      · right
        exact ⟨c, List.mem_cons_of_mem a hc, heq, lt_trans hlt h⟩
    · have hstep : simplex.spc_step m .maximize acc a = acc := by
        simp only [simplex.spc_step]
        rw [if_neg h]
      rw [hstep]
      rcases ih acc with heq | ⟨c, hc, heq, hlt⟩
      · left; exact heq
      · right; exact ⟨c, List.mem_cons_of_mem a hc, heq, hlt⟩

/-- C4: in every iteration of the inner Simplex loop, pivot-column
selection scans the columns strictly between the window's first column
and last (RHS) column of the objective row; for Minimize it returns a
column holding the largest strictly positive entry, for Maximize one
holding the smallest strictly negative entry; when no such column exists
it returns none and the loop terminates, declaring the current matrix
(hence the current solution) optimal. -/
theorem simplex_pivot_column_rule (m : Matrix) (kind : ObjectiveKind) (skip : Nat) :
    (∀ c, simplex.select_pivot_column m kind = some c →
      c ∈ m.cols_range (m.first_col + 1) m.last_col ∧
      (kind = .minimize →
        0 < m.value m.first_row c ∧
        ∀ c' ∈ m.cols_range (m.first_col + 1) m.last_col,
          m.value m.first_row c' ≤ m.value m.first_row c) ∧
      (kind = .maximize →
        m.value m.first_row c < 0 ∧
        ∀ c' ∈ m.cols_range (m.first_col + 1) m.last_col,
          m.value m.first_row c ≤ m.value m.first_row c')) ∧
    (simplex.select_pivot_column m kind = none →
      ∀ c' ∈ m.cols_range (m.first_col + 1) m.last_col,
        (kind = .minimize → m.value m.first_row c' ≤ 0) ∧
        (kind = .maximize → 0 ≤ m.value m.first_row c')) ∧
    (∀ fuel, simplex.select_pivot_column m kind = none →
      simplex.go skip kind (fuel + 1) m = .ok m) := by
  refine ⟨?_, ?_, ?_⟩
  · intro c hc
    cases kind with
    | minimize =>
      rcases spc_fold_cases_min m (m.cols_range (m.first_col + 1) m.last_col)
          ((none : Option Nat), (0 : ℚ)) with heq | ⟨c0, hc0, heq, hlt⟩
      · rw [simplex.select_pivot_column, heq] at hc
        exact absurd hc (by simp)
      · rw [simplex.select_pivot_column, heq] at hc
        simp at hc
        subst hc
        refine ⟨hc0, fun _ => ⟨hlt, fun c' hc' => ?_⟩, fun h => by simp at h⟩
        have := spc_fold_ub_min m (m.cols_range (m.first_col + 1) m.last_col)
          ((none : Option Nat), (0 : ℚ)) c' hc'
        rw [heq] at this
        exact this
    | maximize =>
      rcases spc_fold_cases_max m (m.cols_range (m.first_col + 1) m.last_col)
          ((none : Option Nat), (0 : ℚ)) with heq | ⟨c0, hc0, heq, hlt⟩
      · rw [simplex.select_pivot_column, heq] at hc
        exact absurd hc (by simp)
      · rw [simplex.select_pivot_column, heq] at hc
        simp at hc
        subst hc
        refine ⟨hc0, fun h => by simp at h, fun _ => ⟨hlt, fun c' hc' => ?_⟩⟩
        have := spc_fold_ub_max m (m.cols_range (m.first_col + 1) m.last_col)
          ((none : Option Nat), (0 : ℚ)) c' hc'
        rw [heq] at this
        exact this
  · intro hnone c' hc'
    cases kind with
    | minimize =>
      refine ⟨fun _ => ?_, fun h => by simp at h⟩
      rcases spc_fold_cases_min m (m.cols_range (m.first_col + 1) m.last_col)
          ((none : Option Nat), (0 : ℚ)) with heq | ⟨c0, hc0, heq, hlt⟩
      · have := spc_fold_ub_min m (m.cols_range (m.first_col + 1) m.last_col)
          ((none : Option Nat), (0 : ℚ)) c' hc'
        rw [heq] at this
        exact this
      · rw [simplex.select_pivot_column, heq] at hnone
        simp at hnone
    | maximize =>
      refine ⟨fun h => by simp at h, fun _ => ?_⟩
      rcases spc_fold_cases_max m (m.cols_range (m.first_col + 1) m.last_col)
          ((none : Option Nat), (0 : ℚ)) with heq | ⟨c0, hc0, heq, hlt⟩
      · have := spc_fold_ub_max m (m.cols_range (m.first_col + 1) m.last_col)
          ((none : Option Nat), (0 : ℚ)) c' hc'
        rw [heq] at this
        exact this
      · rw [simplex.select_pivot_column, heq] at hnone
        simp at hnone
  · intro fuel hnone
    simp [simplex.go, hnone]

theorem simplex_pivot_column_rule_witness :
    (0 : ℚ) < (⟨3, 1, 0, 0, [0, 5, 0]⟩ : Matrix).value
      (⟨3, 1, 0, 0, [0, 5, 0]⟩ : Matrix).first_row 1 ∧
    simplex.select_pivot_column ⟨3, 1, 0, 0, [0, 5, 0]⟩ .minimize = some 1 ∧
    1 ∈ (⟨3, 1, 0, 0, [0, 5, 0]⟩ : Matrix).cols_range
      ((⟨3, 1, 0, 0, [0, 5, 0]⟩ : Matrix).first_col + 1)
      (⟨3, 1, 0, 0, [0, 5, 0]⟩ : Matrix).last_col := by
  refine ⟨by decide, by decide, ?_⟩
  have h := (simplex_pivot_column_rule ⟨3, 1, 0, 0, [0, 5, 0]⟩ .minimize 0).1 1 (by decide)
  exact h.1

theorem spr_step_cases (m : Matrix) (pc : Nat) (acc : Option Nat × ℚ) (row : Nat) :
    (simplex.spr_step m pc acc row = acc ∧
      (0 < m.value row pc → 0 ≤ simplex.spr_ratio m pc row →
        acc.2 ≤ simplex.spr_ratio m pc row)) ∨
    (simplex.spr_step m pc acc row = (some row, simplex.spr_ratio m pc row) ∧
      0 < m.value row pc ∧ 0 ≤ simplex.spr_ratio m pc row ∧
      simplex.spr_ratio m pc row < acc.2) := by
  simp only [simplex.spr_step, simplex.spr_ratio]
  by_cases hv : m.value row pc ≤ 0
  · left
    rw [if_pos hv]
    exact ⟨rfl, fun h0 _ => absurd hv (not_le_of_lt h0)⟩
  · rw [if_neg hv]
    by_cases hr : m.value row m.last_col / m.value row pc < 0
    · left
      rw [if_pos hr]
      exact ⟨rfl, fun _ h1 => absurd hr (not_lt_of_le h1)⟩
    · rw [if_neg hr]
      by_cases hm : m.value row m.last_col / m.value row pc < acc.2
      · right
        rw [if_pos hm]
        exact ⟨rfl, lt_of_not_le hv, le_of_not_lt hr, hm⟩
      · left
        rw [if_neg hm]
        exact ⟨rfl, fun _ _ => le_of_not_lt hm⟩

theorem spr_fold_mono (m : Matrix) (pc : Nat) :
    ∀ (l : List Nat) (acc : Option Nat × ℚ),
      (l.foldl (simplex.spr_step m pc) acc).2 ≤ acc.2 := by
  intro l
  induction l with
  | nil => intro acc; exact le_refl _
  | cons a t ih =>
    intro acc
    rw [List.foldl_cons]
    refine le_trans (ih (simplex.spr_step m pc acc a)) ?_
    rcases spr_step_cases m pc acc a with ⟨hstep, _⟩ | ⟨hstep, _, _, hlt⟩
    · rw [hstep]
    · rw [hstep]
      exact le_of_lt hlt

theorem spr_fold_lb (m : Matrix) (pc : Nat) :
    ∀ (l : List Nat) (acc : Option Nat × ℚ) (r : Nat), r ∈ l →
      0 < m.value r pc → 0 ≤ simplex.spr_ratio m pc r →
      (l.foldl (simplex.spr_step m pc) acc).2 ≤ simplex.spr_ratio m pc r := by
  intro l
  induction l with
  | nil => intro acc r hr; simp at hr
  | cons a t ih =>
    intro acc r hr hv hra
    rw [List.foldl_cons]
    rcases List.mem_cons.mp hr with heq | hmem
    · subst heq
      rcases spr_step_cases m pc acc r with ⟨hstep, himp⟩ | ⟨hstep, _, _, _⟩
      · rw [hstep]
        exact le_trans (spr_fold_mono m pc t acc) (himp hv hra)
      · rw [hstep]
        exact le_trans (spr_fold_mono m pc t _) (le_refl _)
    · exact ih (simplex.spr_step m pc acc a) r hmem hv hra

theorem spr_fold_cases (m : Matrix) (pc : Nat) :
    ∀ (l : List Nat) (acc : Option Nat × ℚ),
      l.foldl (simplex.spr_step m pc) acc = acc ∨
      ∃ r ∈ l, l.foldl (simplex.spr_step m pc) acc = (some r, simplex.spr_ratio m pc r) ∧
        0 < m.value r pc ∧ 0 ≤ simplex.spr_ratio m pc r ∧
        simplex.spr_ratio m pc r < acc.2 := by
  intro l
  induction l with
  | nil => intro acc; left; rfl
  | cons a t ih =>
    intro acc
    rw [List.foldl_cons]
    rcases spr_step_cases m pc acc a with ⟨hstep, _⟩ | ⟨hstep, hv, hra, hlt⟩
    · rw [hstep]
      rcases ih acc with heq | ⟨c, hc, heq, h1, h2, h3⟩
      · left; exact heq
      · right; exact ⟨c, List.mem_cons_of_mem a hc, heq, h1, h2, h3⟩
    · rw [hstep]
      rcases ih (some a, simplex.spr_ratio m pc a) with heq | ⟨c, hc, heq, h1, h2, h3⟩
      · right; exact ⟨a, List.mem_cons_self a t, heq, hv, hra, hlt⟩
      · right
        exact ⟨c, List.mem_cons_of_mem a hc, heq, h1, h2, lt_trans h3 hlt⟩

theorem spr_fold_first (m : Matrix) (pc : Nat) :
    ∀ (l : List Nat) (acc : Option Nat × ℚ),
      List.Pairwise (· < ·) l →
      (∀ r0, acc.1 = some r0 → ∀ x ∈ l, r0 < x) →
      ∀ r, (l.foldl (simplex.spr_step m pc) acc).1 = some r →
      ∀ r' ∈ l, r' < r → 0 < m.value r' pc → 0 ≤ simplex.spr_ratio m pc r' →
      (l.foldl (simplex.spr_step m pc) acc).2 < simplex.spr_ratio m pc r' := by
  intro l
  induction l with
  | nil => intro acc _ _ r _ r' hr'; simp at hr'
  | cons a t ih =>
    intro acc hpw hacc r hr r' hr' hlt hv hra
    rw [List.foldl_cons] at hr ⊢
    have hpc := List.pairwise_cons.mp hpw
    rcases List.mem_cons.mp hr' with heq | hmem
    · subst heq
      rcases spr_step_cases m pc acc r' with ⟨hstep, himp⟩ | ⟨hstep, hv2, hr2, hlt2⟩
      · rw [hstep] at hr ⊢
        rcases spr_fold_cases m pc t acc with heqf | ⟨c, hc, heqf, _, _, hltf⟩
        · rw [heqf] at hr ⊢
          have := hacc r hr r' (List.mem_cons_self r' t)
          omega
        · rw [heqf] at hr ⊢
          exact lt_of_lt_of_le hltf (himp hv hra)
      · rw [hstep] at hr ⊢
        rcases spr_fold_cases m pc t (some r', simplex.spr_ratio m pc r') with
          heqf | ⟨c, hc, heqf, _, _, hltf⟩
        · rw [heqf] at hr ⊢
          simp at hr
          omega
        · rw [heqf] at hr ⊢
          exact hltf
    · apply ih (simplex.spr_step m pc acc a) hpc.2 ?_ r hr r' hmem hlt hv hra
      intro r0 h0 x hx
      rcases spr_step_cases m pc acc a with ⟨hstep, _⟩ | ⟨hstep, _, _, _⟩
      · rw [hstep] at h0
        exact hacc r0 h0 x (List.mem_cons_of_mem a hx)
      · rw [hstep] at h0
        simp at h0
        subst h0
        exact hpc.1 x hx

/-- C5 counterexample: the claim says pivot-row selection picks the row
with the smallest ratio among candidate rows (positive pivot entry,
non-negative ratio).  In the matrix below, row 1 is such a candidate
(entry 1, ratio f64::MAX ≥ 0), yet `select_pivot_row` returns none,
because the running minimum starts at the sentinel `f64::MAX` and a
candidate's ratio must be strictly below it to be picked; the loop would
then (incorrectly, per the claim) fail with Infeasible. -/
theorem simplex_pivot_row_counterexample :
    simplex.select_pivot_row ⟨3, 2, 0, 0, [0, 0, 0, 1, 0, f64Max]⟩ 0 1 = none ∧
    1 ∈ (⟨3, 2, 0, 0, [0, 0, 0, 1, 0, f64Max]⟩ : Matrix).rows_from
      ((⟨3, 2, 0, 0, [0, 0, 0, 1, 0, f64Max]⟩ : Matrix).first_row + 1) ∧
    0 < (⟨3, 2, 0, 0, [0, 0, 0, 1, 0, f64Max]⟩ : Matrix).value 1 0 ∧
    0 ≤ simplex.spr_ratio ⟨3, 2, 0, 0, [0, 0, 0, 1, 0, f64Max]⟩ 0 1 := by
  refine ⟨by decide, by decide, by decide, by decide⟩

/-- C5 (amended): pivot-row selection skips the top `objective_rows` rows
of the window, considers only rows with strictly positive pivot-column
entry, discards negative ratios, and picks the row with the smallest
ratio, ties broken by first encountered — with the amendment that only
ratios strictly below the initial sentinel `f64::MAX` can be picked; when
no row is selected (in particular when no candidate exists at all) the
loop fails with Infeasible ("Function is unbounded."). -/
theorem simplex_pivot_row_rule (m : Matrix) (pivot_col skip : Nat) :
    (∀ r, simplex.select_pivot_row m pivot_col skip = some r →
      r ∈ m.rows_from (m.first_row + skip) ∧
      0 < m.value r pivot_col ∧
      0 ≤ simplex.spr_ratio m pivot_col r ∧
      simplex.spr_ratio m pivot_col r < f64Max ∧
      (∀ r' ∈ m.rows_from (m.first_row + skip),
        0 < m.value r' pivot_col → 0 ≤ simplex.spr_ratio m pivot_col r' →
        simplex.spr_ratio m pivot_col r ≤ simplex.spr_ratio m pivot_col r') ∧
      (∀ r' ∈ m.rows_from (m.first_row + skip), r' < r →
        0 < m.value r' pivot_col → 0 ≤ simplex.spr_ratio m pivot_col r' →
        simplex.spr_ratio m pivot_col r < simplex.spr_ratio m pivot_col r')) ∧
    (simplex.select_pivot_row m pivot_col skip = none →
      ∀ r' ∈ m.rows_from (m.first_row + skip),
        0 < m.value r' pivot_col → 0 ≤ simplex.spr_ratio m pivot_col r' →
        f64Max ≤ simplex.spr_ratio m pivot_col r') ∧
    (∀ fuel kind, simplex.select_pivot_column m kind = some pivot_col →
      simplex.select_pivot_row m pivot_col skip = none →
      simplex.go skip kind (fuel + 1) m = .err ⟨.infeasible, "Function is unbounded."⟩) := by
  refine ⟨?_, ?_, ?_⟩
  · intro r hr
    rcases spr_fold_cases m pivot_col (m.rows_from (m.first_row + skip))
        ((none : Option Nat), f64Max) with heq | ⟨c, hc, heq, hv, hra, hlt⟩
    · rw [simplex.select_pivot_row, heq] at hr
      exact absurd hr (by simp)
    · rw [simplex.select_pivot_row, heq] at hr
      simp at hr
      subst hr
      refine ⟨hc, hv, hra, hlt, fun r' hr' hv' hra' => ?_, fun r' hr' hlt' hv' hra' => ?_⟩
      · have := spr_fold_lb m pivot_col (m.rows_from (m.first_row + skip))
          ((none : Option Nat), f64Max) r' hr' hv' hra'
        rw [heq] at this
        exact this
      · have := spr_fold_first m pivot_col (m.rows_from (m.first_row + skip))
          ((none : Option Nat), f64Max)
          (by simpa [Matrix.rows_from] using List.pairwise_lt_range' _ _ 1)
          (by intro r0 h0; simp at h0)
          c (by rw [heq]) r' hr' hlt' hv' hra'
        rw [heq] at this
        exact this
  · intro hnone r' hr' hv' hra'
    rcases spr_fold_cases m pivot_col (m.rows_from (m.first_row + skip))
        ((none : Option Nat), f64Max) with heq | ⟨c, hc, heq, hv, hra, hlt⟩
    · have := spr_fold_lb m pivot_col (m.rows_from (m.first_row + skip))
        ((none : Option Nat), f64Max) r' hr' hv' hra'
      rw [heq] at this
      exact this
    · rw [simplex.select_pivot_row, heq] at hnone
      simp at hnone
  · intro fuel kind hcol hnone
    simp [simplex.go, hcol, hnone]

theorem simplex_pivot_row_rule_witness :
    simplex.select_pivot_row ⟨3, 2, 0, 0, [0, 0, 0, 1, 0, 4]⟩ 0 1 = some 1 ∧
    (1 ∈ (⟨3, 2, 0, 0, [0, 0, 0, 1, 0, 4]⟩ : Matrix).rows_from
      ((⟨3, 2, 0, 0, [0, 0, 0, 1, 0, 4]⟩ : Matrix).first_row + 1) ∧
     0 < (⟨3, 2, 0, 0, [0, 0, 0, 1, 0, 4]⟩ : Matrix).value 1 0 ∧
     0 ≤ simplex.spr_ratio ⟨3, 2, 0, 0, [0, 0, 0, 1, 0, 4]⟩ 0 1 ∧
     simplex.spr_ratio ⟨3, 2, 0, 0, [0, 0, 0, 1, 0, 4]⟩ 0 1 < f64Max) := by
  refine ⟨by decide, ?_⟩
  have h := (simplex_pivot_row_rule ⟨3, 2, 0, 0, [0, 0, 0, 1, 0, 4]⟩ 0 1).1 1 (by decide)
  exact ⟨h.1, h.2.1, h.2.2.1, h.2.2.2.1⟩

/-- C7: for every problem accepted by the Simplex engine, if Phase I
(the inner loop run with two objective rows, Minimize) converges to a
matrix whose cell at the window's first row and last column has absolute
value above 1e-6, then `solve` fails with Infeasible ("no feasible
solution exists") and Phase II is never entered. -/
theorem simplex_phase1_infeasible (p : Problem) (e : Expression) (k : ObjectiveKind)
    (mp : Matrix × Nat) (m1 : Matrix)
    (hobj : p.objective = some (e, k))
    (hsetup : simplex.setup_matrix p = .ok mp)
    (hph1 : simplex.go 2 .minimize (mp.1.width * mp.1.height) mp.1 = .ok m1)
    (hbig : 1 / 1000000 < |m1.value m1.first_row m1.last_col|) :
    simplex.solve p = .err ⟨.infeasible, "No feasible solution exists."⟩ := by
  simp only [simplex.solve, hobj, hsetup, SolveResult.bind, hph1, simplex.produce_solution]
  rw [decide_eq_true hbig]
  rfl

theorem simplex_phase1_infeasible_witness :
    simplex.solve ⟨[.continuous], [⟨[1], .equalTo, 1⟩, ⟨[1], .equalTo, 2⟩],
      some ([1], .minimize)⟩ = .err ⟨.infeasible, "No feasible solution exists."⟩ :=
  simplex_phase1_infeasible
    ⟨[.continuous], [⟨[1], .equalTo, 1⟩, ⟨[1], .equalTo, 2⟩], some ([1], .minimize)⟩
    [1] .minimize
    (⟨6, 4, 0, 0, [1, 0, 2, 0, 0, 3, 0, 1, -1, 0, 0, 0, 0, 0, 1, 1, 0, 1, 0, 0, 1, 0, 1, 2]⟩, 2)
    ⟨6, 4, 0, 0, [1, 0, 0, -2, 0, 1, 0, 1, 0, 1, 0, 1, 0, 0, 1, 1, 0, 1, 0, 0, 0, -1, 1, 1]⟩
    rfl (by decide) (by decide) (by decide)

theorem ck_zero (cs : List brute.BConstraint) (obj : brute.BObjective) (cur : Nat)
    (st : brute.BState) : brute.check_combinations cs obj 0 cur st = st := rfl

theorem ck_succ (cs : List brute.BConstraint) (obj : brute.BObjective) (fuel cur : Nat)
    (st : brute.BState) :
    brute.check_combinations cs obj (fuel + 1) cur st =
      match st.vars.get? cur with
      | none => st
      | some v => (brute.intRange v.min v.max).foldl (brute.bstep cs obj fuel cur) st := rfl

theorem intRange_mem {mn mx x : Int} : x ∈ brute.intRange mn mx ↔ mn ≤ x ∧ x ≤ mx := by
  unfold brute.intRange
  rw [List.mem_map]
  constructor
  · rintro ⟨i, hi, rfl⟩
    rw [List.mem_range] at hi
    have h2 : (i : ℤ) < mx + 1 - mn := Int.lt_toNat.mp hi
    omega
  · intro h
    refine ⟨(x - mn).toNat, ?_, ?_⟩
    · rw [List.mem_range]
      refine Int.lt_toNat.mpr ?_
      rw [Int.toNat_of_nonneg (by omega : (0 : ℤ) ≤ x - mn)]
      omega
    · rw [Int.toNat_of_nonneg (by omega : (0 : ℤ) ≤ x - mn)]
      omega

theorem modify_bnds (l : List brute.BVar) (cur : Nat) (val : Int) :
    (List.modify (fun w => { w with value := val }) cur l).map brute.BVar.bnds =
      l.map brute.BVar.bnds := by
  apply List.ext_getElem?
  intro j
  simp only [List.getElem?_map, List.getElem?_modify]
  cases l[j]? with
  | none => rfl
  | some a => by_cases h : cur = j <;> simp [h, brute.BVar.bnds]

theorem bnds_get? {l L : List brute.BVar}
    (h : l.map brute.BVar.bnds = L.map brute.BVar.bnds) {i : Nat} {x : brute.BVar}
    (hx : l.get? i = some x) :
    ∃ y, L.get? i = some y ∧ x.min = y.min ∧ x.max = y.max := by
  have h2 : (l.map brute.BVar.bnds)[i]? = (L.map brute.BVar.bnds)[i]? := by rw [h]
  rw [List.get?_eq_getElem?] at hx
  rw [List.getElem?_map, List.getElem?_map, hx] at h2
  cases hL : L[i]? with
  | none => rw [hL] at h2; simp at h2
  | some y =>
    rw [hL] at h2
    simp only [Option.map_some', Option.some.injEq, brute.BVar.bnds, Prod.mk.injEq] at h2
    exact ⟨y, by rw [List.get?_eq_getElem?, hL], h2.1, h2.2⟩

theorem okVars_modify {l : List brute.BVar} {cur : Nat} {val : Int}
    (h : brute.okVars l)
    (hval : ∀ v, l.get? cur = some v → v.min ≤ val ∧ val ≤ v.max) :
    brute.okVars (List.modify (fun w => { w with value := val }) cur l) := by
  intro x hx
  obtain ⟨j, hj⟩ := List.mem_iff_getElem?.mp hx
  rw [List.getElem?_modify] at hj
  cases hl : l[j]? with
  | none => rw [hl] at hj; simp at hj
  | some a =>
    rw [hl] at hj
    by_cases hc : cur = j
    · subst hc
      simp at hj
      have hb := hval a (by rw [List.get?_eq_getElem?]; exact hl)
      rw [← hj]
      exact hb
    · simp [hc] at hj
      rw [← hj]
      exact h a (List.getElem?_mem hl)

theorem okVars_in_box : ∀ {l : List brute.BVar}, brute.okVars l →
    in_box (l.map brute.BVar.bnds) (l.map brute.BVar.value) := by
  intro l
  induction l with
  | nil => intro _; exact List.Forall₂.nil
  | cons a t ih =>
    intro h
    refine List.Forall₂.cons ?_ (ih fun v hv => h v (List.mem_cons_of_mem a hv))
    exact h a (List.mem_cons_self a t)

theorem get_constraint_value_eq (vars : List brute.BVar) (coeffs : List ℚ) :
    brute.get_constraint_value vars coeffs =
      lin_value (int_point (vars.map brute.BVar.value)) coeffs := by
  unfold brute.get_constraint_value lin_value int_point
  rw [List.map_map, List.zipWith_map_left]
  rfl

theorem meets_constraints_eq (vars : List brute.BVar) (cs : List brute.BConstraint) :
    brute.meets_constraints vars cs =
      meets_point (int_point (vars.map brute.BVar.value)) cs := by
  simp only [brute.meets_constraints, meets_point]
  congr 1
  funext c
  rw [get_constraint_value_eq]

theorem strictly_better_trans {k : ObjectiveKind} {a b c : ℚ}
    (h1 : k.strictly_better a b) (h2 : k.strictly_better b c) : k.strictly_better a c := by
  cases k
  · exact lt_trans h1 h2
  · exact lt_trans h2 h1

theorem not_worse_refl (k : ObjectiveKind) (a : ℚ) : k.not_worse a a := by
  cases k <;> exact le_refl a

theorem not_worse_trans {k : ObjectiveKind} {a b c : ℚ}
    (h1 : k.not_worse a b) (h2 : k.not_worse b c) : k.not_worse a c := by
  cases k
  · exact le_trans h1 h2
  · exact le_trans h2 h1

theorem not_worse_of_sb {k : ObjectiveKind} {a b : ℚ}
    (h : k.strictly_better a b) : k.not_worse a b := by
  cases k <;> exact le_of_lt h

theorem not_worse_of_not_sb {k : ObjectiveKind} {a b : ℚ}
    (h : ¬ k.strictly_better a b) : k.not_worse b a := by
  cases k <;> exact le_of_not_lt h

theorem not_sb_of_not_worse {k : ObjectiveKind} {a b : ℚ}
    (h : k.not_worse a b) : ¬ k.strictly_better b a := by
  cases k <;> exact not_lt_of_le h

theorem Rel_refl (cs : List brute.BConstraint) (obj : brute.BObjective)
    (st : brute.BState) : brute.Rel cs obj st st := Or.inl ⟨rfl, rfl⟩

theorem Rel_trans {cs : List brute.BConstraint} {obj : brute.BObjective}
    {st st' st'' : brute.BState}
    (h1 : brute.Rel cs obj st st') (h2 : brute.Rel cs obj st' st'') :
    brute.Rel cs obj st st'' := by
  rcases h2 with ⟨hb2, hs2⟩ | ⟨hm2, ho2, hlt2⟩
  · rcases h1 with ⟨hb1, hs1⟩ | ⟨hm1, ho1, hlt1⟩
    · exact Or.inl ⟨hb2.trans hb1, hs2.trans hs1⟩
    · exact Or.inr ⟨hs2 ▸ hm1, hs2 ▸ hb2 ▸ ho1, hb2 ▸ hlt1⟩
  · rcases h1 with ⟨hb1, hs1⟩ | ⟨hm1, ho1, hlt1⟩
    · exact Or.inr ⟨hm2, ho2, hb1 ▸ hlt2⟩
    · exact Or.inr ⟨hm2, ho2, strictly_better_trans hlt2 hlt1⟩

theorem Rel_not_worse {cs : List brute.BConstraint} {obj : brute.BObjective}
    {st st' : brute.BState} (h : brute.Rel cs obj st st') :
    obj.kind.not_worse st'.best st.best := by
  rcases h with ⟨hb, _⟩ | ⟨_, _, hlt⟩
  · rw [hb]; exact not_worse_refl _ _
  · exact not_worse_of_sb hlt

theorem isBest_iff (k : ObjectiveKind) (a b : ℚ) :
    ((match k with
      | ObjectiveKind.minimize => decide (a < b)
      | ObjectiveKind.maximize => decide (b < a)) = true) ↔ k.strictly_better a b := by
  cases k <;> simp [ObjectiveKind.strictly_better]

theorem bupd_vars (cs : List brute.BConstraint) (obj : brute.BObjective) (cur : Nat)
    (st1 : brute.BState) (val : Int) :
    (brute.bupd cs obj cur st1 val).vars =
      List.modify (fun w => { w with value := val }) cur st1.vars := by
  simp only [brute.bupd]
  split
  · split <;> rfl
  · rfl

theorem bupd_Rel (cs : List brute.BConstraint) (obj : brute.BObjective) (cur : Nat)
    (st1 : brute.BState) (val : Int) :
    brute.Rel cs obj st1 (brute.bupd cs obj cur st1 val) := by
  simp only [brute.bupd]
  split
  · next hmeets =>
    split
    · next hbest =>
      right
      refine ⟨?_, ?_, ?_⟩
      · rw [← meets_constraints_eq]
        exact hmeets
      · rw [← get_constraint_value_eq]
      · exact (isBest_iff _ _ _).mp hbest
    · next hbest => exact Or.inl ⟨rfl, rfl⟩
  · exact Or.inl ⟨rfl, rfl⟩

theorem ck_bnds (cs : List brute.BConstraint) (obj : brute.BObjective) :
    ∀ fuel cur (st : brute.BState),
      ((brute.check_combinations cs obj fuel cur st).vars).map brute.BVar.bnds =
        st.vars.map brute.BVar.bnds := by
  intro fuel
  induction fuel with
  | zero => intro cur st; rfl
  | succ fuel ih =>
    intro cur st
    rw [ck_succ]
    cases hv : st.vars.get? cur with
    | none => rfl
    | some v =>
      have inner : ∀ (vals : List Int) (b : brute.BState),
          b.vars.map brute.BVar.bnds = st.vars.map brute.BVar.bnds →
          ((vals.foldl (brute.bstep cs obj fuel cur) b).vars).map brute.BVar.bnds =
            st.vars.map brute.BVar.bnds := by
        intro vals
        induction vals with
        | nil => intro b hb; exact hb
        | cons a t iht =>
          intro b hb
          rw [List.foldl_cons]
          apply iht
          show ((brute.bstep cs obj fuel cur b a).vars).map brute.BVar.bnds = _
          simp only [brute.bstep]
          split
          · rw [ih (cur + 1) (brute.bupd cs obj cur b a), bupd_vars, modify_bnds]
            exact hb
          · rw [bupd_vars, modify_bnds]
            exact hb
      exact inner _ st rfl

theorem ck_len (cs : List brute.BConstraint) (obj : brute.BObjective)
    (fuel cur : Nat) (st : brute.BState) :
    (brute.check_combinations cs obj fuel cur st).vars.length = st.vars.length := by
  have h := congrArg List.length (ck_bnds cs obj fuel cur st)
  simpa using h

theorem bstep_bnds (cs : List brute.BConstraint) (obj : brute.BObjective)
    (fuel cur : Nat) (b : brute.BState) (val : Int) :
    ((brute.bstep cs obj fuel cur b val).vars).map brute.BVar.bnds =
      b.vars.map brute.BVar.bnds := by
  simp only [brute.bstep]
  split
  · rw [ck_bnds cs obj fuel (cur + 1) (brute.bupd cs obj cur b val), bupd_vars, modify_bnds]
  · rw [bupd_vars, modify_bnds]

theorem ck_below_cur (cs : List brute.BConstraint) (obj : brute.BObjective) :
    ∀ fuel cur (st : brute.BState) (i : Nat), i < cur →
      (brute.check_combinations cs obj fuel cur st).vars.get? i = st.vars.get? i := by
  intro fuel
  induction fuel with
  | zero => intro cur st i _; rfl
  | succ fuel ih =>
    intro cur st i hi
    rw [ck_succ]
    cases hv : st.vars.get? cur with
    | none => rfl
    | some v =>
      have inner : ∀ (vals : List Int) (b : brute.BState),
          b.vars.get? i = st.vars.get? i →
          (vals.foldl (brute.bstep cs obj fuel cur) b).vars.get? i = st.vars.get? i := by
        intro vals
        induction vals with
        | nil => intro b hb; exact hb
        | cons a t iht =>
          intro b hb
          rw [List.foldl_cons]
          apply iht
          show (brute.bstep cs obj fuel cur b a).vars.get? i = _
          have hmod : (brute.bupd cs obj cur b a).vars.get? i = b.vars.get? i := by
            rw [bupd_vars, List.get?_eq_getElem?, List.get?_eq_getElem?, List.getElem?_modify]
            cases b.vars[i]? with
            | none => rfl
            | some x =>
              have hne : cur ≠ i := by omega
              simp [hne]
          simp only [brute.bstep]
          split
          · rw [ih (cur + 1) (brute.bupd cs obj cur b a) i (by omega), hmod]
            exact hb
          · rw [hmod]
            exact hb
      exact inner _ st rfl

theorem bstep_below_cur (cs : List brute.BConstraint) (obj : brute.BObjective)
    (fuel cur : Nat) (b : brute.BState) (val : Int) (i : Nat) (hi : i < cur) :
    (brute.bstep cs obj fuel cur b val).vars.get? i = b.vars.get? i := by
  have hmod : (brute.bupd cs obj cur b val).vars.get? i = b.vars.get? i := by
    rw [bupd_vars, List.get?_eq_getElem?, List.get?_eq_getElem?, List.getElem?_modify]
    cases b.vars[i]? with
    | none => rfl
    | some x =>
      have hne : cur ≠ i := by omega
      simp [hne]
  simp only [brute.bstep]
  split
  · rw [ck_below_cur cs obj fuel (cur + 1) (brute.bupd cs obj cur b val) i (by omega), hmod]
  · rw [hmod]

theorem ck_Rel (cs : List brute.BConstraint) (obj : brute.BObjective) :
    ∀ fuel cur (st : brute.BState),
      brute.Rel cs obj st (brute.check_combinations cs obj fuel cur st) := by
  intro fuel
  induction fuel with
  | zero => intro cur st; exact Rel_refl cs obj st
  | succ fuel ih =>
    intro cur st
    rw [ck_succ]
    cases hv : st.vars.get? cur with
    | none => exact Rel_refl cs obj st
    | some v =>
      have inner : ∀ (vals : List Int) (b : brute.BState), brute.Rel cs obj st b →
          brute.Rel cs obj st (vals.foldl (brute.bstep cs obj fuel cur) b) := by
        intro vals
        induction vals with
        | nil => intro b hb; exact hb
        | cons a t iht =>
          intro b hb
          rw [List.foldl_cons]
          apply iht
          refine Rel_trans hb ?_
          show brute.Rel cs obj b (brute.bstep cs obj fuel cur b a)
          simp only [brute.bstep]
          split
          · exact Rel_trans (bupd_Rel cs obj cur b a) (ih (cur + 1) _)
          · exact bupd_Rel cs obj cur b a
      exact inner _ st (Rel_refl cs obj st)

theorem bstep_Rel (cs : List brute.BConstraint) (obj : brute.BObjective)
    (fuel cur : Nat) (b : brute.BState) (val : Int) :
    brute.Rel cs obj b (brute.bstep cs obj fuel cur b val) := by
  simp only [brute.bstep]
  split
  · exact Rel_trans (bupd_Rel cs obj cur b val) (ck_Rel cs obj fuel (cur + 1) _)
  · exact bupd_Rel cs obj cur b val

theorem fold_Rel (cs : List brute.BConstraint) (obj : brute.BObjective)
    (fuel cur : Nat) : ∀ (vals : List Int) (b : brute.BState),
      brute.Rel cs obj b (vals.foldl (brute.bstep cs obj fuel cur) b) := by
  intro vals
  induction vals with
  | nil => intro b; exact Rel_refl cs obj b
  | cons a t iht =>
    intro b
    rw [List.foldl_cons]
    exact Rel_trans (bstep_Rel cs obj fuel cur b a) (iht _)

theorem bupd_sol (cs : List brute.BConstraint) (obj : brute.BObjective) (cur : Nat)
    (b : brute.BState) (val : Int) :
    ((brute.bupd cs obj cur b val).solution = b.solution ∧
      (brute.bupd cs obj cur b val).best = b.best) ∨
    (brute.bupd cs obj cur b val).solution =
      (List.modify (fun w => { w with value := val }) cur b.vars).map brute.BVar.value := by
  simp only [brute.bupd]
  split
  · split
    · exact Or.inr rfl
    · exact Or.inl ⟨rfl, rfl⟩
  · exact Or.inl ⟨rfl, rfl⟩

theorem ck_box (cs : List brute.BConstraint) (obj : brute.BObjective) :
    ∀ fuel cur (st : brute.BState),
      brute.okVars st.vars →
      brute.okVars (brute.check_combinations cs obj fuel cur st).vars ∧
      (((brute.check_combinations cs obj fuel cur st).solution = st.solution ∧
        (brute.check_combinations cs obj fuel cur st).best = st.best) ∨
       in_box (st.vars.map brute.BVar.bnds)
         (brute.check_combinations cs obj fuel cur st).solution) := by
  intro fuel
  induction fuel with
  | zero => intro cur st h; exact ⟨h, Or.inl ⟨rfl, rfl⟩⟩
  | succ fuel ih =>
    intro cur st hok
    rw [ck_succ]
    cases hv : st.vars.get? cur with
    | none => exact ⟨hok, Or.inl ⟨rfl, rfl⟩⟩
    | some v =>
      have inner : ∀ (vals : List Int), (∀ x ∈ vals, v.min ≤ x ∧ x ≤ v.max) →
          ∀ (b : brute.BState),
          b.vars.map brute.BVar.bnds = st.vars.map brute.BVar.bnds →
          brute.okVars b.vars →
          ((b.solution = st.solution ∧ b.best = st.best) ∨
            in_box (st.vars.map brute.BVar.bnds) b.solution) →
          brute.okVars (vals.foldl (brute.bstep cs obj fuel cur) b).vars ∧
          (((vals.foldl (brute.bstep cs obj fuel cur) b).solution = st.solution ∧
            (vals.foldl (brute.bstep cs obj fuel cur) b).best = st.best) ∨
           in_box (st.vars.map brute.BVar.bnds)
             (vals.foldl (brute.bstep cs obj fuel cur) b).solution) := by
        intro vals
        induction vals with
        | nil => intro _ b _ hokb hd; exact ⟨hokb, hd⟩
        | cons a t iht =>
          intro hvals b hb hokb hd
          rw [List.foldl_cons]
          have hval' : ∀ v', b.vars.get? cur = some v' → v'.min ≤ a ∧ a ≤ v'.max := by
            intro v' hv'
            obtain ⟨y, hy, hmin, hmax⟩ := bnds_get? hb hv'
            have hyv : y = v := Option.some.inj (hy.symm.trans hv)
            subst hyv
            obtain ⟨hva1, hva2⟩ := hvals a (List.mem_cons_self a t)
            exact ⟨by omega, by omega⟩
          have hokm : brute.okVars (List.modify (fun w => { w with value := a }) cur b.vars) :=
            okVars_modify hokb hval'
          have hbupd_ok : brute.okVars (brute.bupd cs obj cur b a).vars := by
            rw [bupd_vars]
            exact hokm
          have hbupd_bnds : (brute.bupd cs obj cur b a).vars.map brute.BVar.bnds =
              st.vars.map brute.BVar.bnds := by
            rw [bupd_vars, modify_bnds]
            exact hb
          have hbupd_sol : ((brute.bupd cs obj cur b a).solution = st.solution ∧
              (brute.bupd cs obj cur b a).best = st.best) ∨
              in_box (st.vars.map brute.BVar.bnds) (brute.bupd cs obj cur b a).solution := by
            rcases bupd_sol cs obj cur b a with ⟨hs, hbst⟩ | hs
            · rcases hd with ⟨h1, h2⟩ | h1
              · exact Or.inl ⟨hs.trans h1, hbst.trans h2⟩
              · exact Or.inr (by rw [hs]; exact h1)
            · right
              rw [hs]
              have hbox := okVars_in_box hokm
              rw [modify_bnds, hb] at hbox
              exact hbox
          refine iht (fun x hx => hvals x (List.mem_cons_of_mem a hx))
            (brute.bstep cs obj fuel cur b a) ?_ ?_ ?_
          · rw [bstep_bnds]
            exact hb
          · show brute.okVars (brute.bstep cs obj fuel cur b a).vars
            simp only [brute.bstep]
            split
            · exact (ih (cur + 1) (brute.bupd cs obj cur b a) hbupd_ok).1
            · exact hbupd_ok
          · show ((brute.bstep cs obj fuel cur b a).solution = st.solution ∧
                (brute.bstep cs obj fuel cur b a).best = st.best) ∨
              in_box (st.vars.map brute.BVar.bnds) (brute.bstep cs obj fuel cur b a).solution
            simp only [brute.bstep]
            split
            · rcases (ih (cur + 1) (brute.bupd cs obj cur b a) hbupd_ok).2 with ⟨hs1, hb1⟩ | h1
              · rcases hbupd_sol with ⟨h2, h3⟩ | h2
                · exact Or.inl ⟨hs1.trans h2, hb1.trans h3⟩
                · exact Or.inr (by rw [hs1]; exact h2)
              · right
                rw [hbupd_bnds] at h1
                exact h1
            · exact hbupd_sol
      exact inner (brute.intRange v.min v.max) (fun x hx => intRange_mem.mp hx) st rfl hok
        (Or.inl ⟨rfl, rfl⟩)

theorem ck_opt (cs : List brute.BConstraint) (obj : brute.BObjective) :
    ∀ fuel cur (st : brute.BState) (w : List Int),
      st.vars.length ≤ fuel + cur →
      cur < st.vars.length →
      w.length = st.vars.length →
      (∀ i, i < cur → (st.vars.get? i).map brute.BVar.value = w.get? i) →
      (∀ i v x, st.vars.get? i = some v → w.get? i = some x → v.min ≤ x ∧ x ≤ v.max) →
      meets_point (int_point w) cs = true →
      obj.kind.not_worse (brute.check_combinations cs obj fuel cur st).best
        (lin_value (int_point w) obj.coeffs) := by
  intro fuel
  induction fuel with
  | zero => intro cur st w hfuel hcur; omega
  | succ fuel ih =>
    intro cur st w hfuel hcur hlen hpre hbounds hw
    obtain ⟨v, hv⟩ : ∃ v, st.vars.get? cur = some v := by
      rw [List.get?_eq_getElem?]
      exact ⟨_, List.getElem?_eq_getElem hcur⟩
    obtain ⟨wc, hwc⟩ : ∃ x, w.get? cur = some x := by
      rw [List.get?_eq_getElem?]
      exact ⟨_, List.getElem?_eq_getElem (by omega)⟩
    have hwcmem : wc ∈ brute.intRange v.min v.max :=
      intRange_mem.mpr (hbounds cur v wc hv hwc)
    rw [ck_succ, hv]
    have inner : ∀ (vals : List Int) (b : brute.BState),
        b.vars.map brute.BVar.bnds = st.vars.map brute.BVar.bnds →
        (∀ i, i < cur → (b.vars.get? i).map brute.BVar.value = w.get? i) →
        wc ∈ vals →
        obj.kind.not_worse (vals.foldl (brute.bstep cs obj fuel cur) b).best
          (lin_value (int_point w) obj.coeffs) := by
      intro vals
      induction vals with
      | nil => intro b _ _ hmem; simp at hmem
      | cons a t iht =>
        intro b hbnds hbpre hmem
        rw [List.foldl_cons]
        have hblen : b.vars.length = st.vars.length := by
          have h := congrArg List.length hbnds
          simpa using h
        by_cases ha : a = wc
        · subst ha
          obtain ⟨v2, hv2⟩ : ∃ v2, b.vars[cur]? = some v2 :=
            ⟨_, List.getElem?_eq_getElem (by omega)⟩
          have hlen2 : (brute.bupd cs obj cur b a).vars.length = b.vars.length := by
            rw [bupd_vars, List.length_modify]
          have hkey : obj.kind.not_worse (brute.bstep cs obj fuel cur b a).best
              (lin_value (int_point w) obj.coeffs) := by
            by_cases hleaf : cur < b.vars.length - 1
            · -- descend: a full sweep below includes w
              have hbstep : brute.bstep cs obj fuel cur b a =
                  brute.check_combinations cs obj fuel (cur + 1) (brute.bupd cs obj cur b a) := by
                simp only [brute.bstep]
                rw [if_pos (by omega : cur < (brute.bupd cs obj cur b a).vars.length - 1)]
              rw [hbstep]
              apply ih (cur + 1) (brute.bupd cs obj cur b a) w
              · omega
              · omega
              · omega
              · intro i hi
                rcases Nat.lt_or_ge i cur with hic | hic
                · have : (brute.bupd cs obj cur b a).vars.get? i = b.vars.get? i := by
                    rw [bupd_vars, List.get?_eq_getElem?, List.get?_eq_getElem?,
                      List.getElem?_modify]
                    cases b.vars[i]? with
                    | none => rfl
                    | some x =>
                      have hne : cur ≠ i := by omega
                      simp [hne]
                  rw [this]
                  exact hbpre i hic
                · have hieq : i = cur := by omega
                  subst hieq
                  rw [bupd_vars, List.get?_eq_getElem?, List.getElem?_modify, hv2, hwc]
                  simp
              · intro i vv xx hvv hxx
                have hbb : (brute.bupd cs obj cur b a).vars.map brute.BVar.bnds =
                    st.vars.map brute.BVar.bnds := by
                  rw [bupd_vars, modify_bnds]
                  exact hbnds
                obtain ⟨y, hy, hmin, hmax⟩ := bnds_get? hbb hvv
                obtain ⟨h1, h2⟩ := hbounds i y xx hy hxx
                exact ⟨by omega, by omega⟩
              · exact hw
            · -- leaf: this assignment is exactly w
              have hcurlen : cur < b.vars.length := by omega
              have hext : (List.modify (fun z => { z with value := a }) cur b.vars).map
                  brute.BVar.value = w := by
                apply List.ext_getElem?
                intro j
                simp only [List.getElem?_map, List.getElem?_modify]
                by_cases hj : j < b.vars.length
                · by_cases hjc : cur = j
                  · subst hjc
                    rw [List.get?_eq_getElem?] at hwc
                    rw [hv2, hwc]
                    simp
                  · have hjcur : j < cur := by omega
                    have hx := hbpre j hjcur
                    rw [List.get?_eq_getElem?, List.get?_eq_getElem?] at hx
                    cases hbj : b.vars[j]? with
                    | none =>
                      rw [hbj] at hx
                      simp only [Option.map_none'] at hx
                      rw [← hx]
                      rfl
                    | some x =>
                      rw [hbj] at hx
                      simp only [if_neg hjc]
                      rw [← hx]
                      rfl
                · have h1 : b.vars[j]? = none := List.getElem?_eq_none (by omega)
                  have h2 : w[j]? = none := List.getElem?_eq_none (by omega)
                  rw [h1, h2]
                  rfl
              have hmeets : brute.meets_constraints
                  (List.modify (fun z => { z with value := a }) cur b.vars) cs = true := by
                rw [meets_constraints_eq, hext]
                exact hw
              have hbstep : brute.bstep cs obj fuel cur b a = brute.bupd cs obj cur b a := by
                simp only [brute.bstep]
                rw [if_neg (by omega : ¬ cur < (brute.bupd cs obj cur b a).vars.length - 1)]
              rw [hbstep]
              simp only [brute.bupd]
              split
              · split
                · next hbest =>
                  show obj.kind.not_worse (brute.get_constraint_value
                    (List.modify (fun z => { z with value := a }) cur b.vars) obj.coeffs) _
                  rw [get_constraint_value_eq, hext]
                  exact not_worse_refl _ _
                · next hbest =>
                  show obj.kind.not_worse b.best _
                  have hnb : ¬ obj.kind.strictly_better
                      (brute.get_constraint_value
                        (List.modify (fun z => { z with value := a }) cur b.vars) obj.coeffs)
                      b.best := fun hsb => hbest ((isBest_iff _ _ _).mpr hsb)
                  have hnw := not_worse_of_not_sb hnb
                  rw [get_constraint_value_eq, hext] at hnw
                  exact hnw
              · next hmeets2 => exact absurd hmeets hmeets2
          exact not_worse_trans
            (Rel_not_worse (fold_Rel cs obj fuel cur t (brute.bstep cs obj fuel cur b a)))
            hkey
        · have hmem' : wc ∈ t := by
            rcases List.mem_cons.mp hmem with h | h
            · exact absurd h.symm ha
            · exact h
          refine iht (brute.bstep cs obj fuel cur b a) ?_ ?_ hmem'
          · rw [bstep_bnds]
            exact hbnds
          · intro i hi
            rw [bstep_below_cur cs obj fuel cur b a i hi]
            exact hbpre i hi
    exact inner _ st rfl hpre hwcmem

theorem forall₂_get? {α β : Type} {R : α → β → Prop} :
    ∀ {l1 : List α} {l2 : List β}, List.Forall₂ R l1 l2 →
      ∀ i a b, l1.get? i = some a → l2.get? i = some b → R a b := by
  intro l1 l2 h
  induction h with
  | nil => intro i a b h1; simp at h1
  | @cons x y t1 t2 hr _ ih =>
    intro i a b h1 h2
    cases i with
    | zero =>
      injection h1 with h1
      injection h2 with h2
      subst h1
      subst h2
      exact hr
    | succ n => exact ih n a b h1 h2

theorem init_vars_len (p : Problem) (k : ObjectiveKind) :
    (brute.init_state p k).vars.length = p.vars.length := by
  simp [brute.init_state, brute.boundsOf]

theorem init_bnds (p : Problem) (k : ObjectiveKind) :
    (brute.init_state p k).vars.map brute.BVar.bnds = brute.boundsOf p := by
  simp only [brute.init_state, List.map_map]
  conv_rhs => rw [← List.map_id (brute.boundsOf p)]
  congr 1

theorem init_okVars (p : Problem) (k : ObjectiveKind)
    (hmin : ∀ mn mx, VariableKind.integer mn mx ∈ p.vars → mn ≤ mx) :
    brute.okVars (brute.init_state p k).vars := by
  intro x hx
  simp only [brute.init_state] at hx
  rw [List.mem_map] at hx
  obtain ⟨bp, hbp, rfl⟩ := hx
  simp only [brute.boundsOf, List.mem_map] at hbp
  obtain ⟨kind, hkind, rfl⟩ := hbp
  cases kind with
  | continuous => exact ⟨le_refl 0, le_refl 0⟩
  | integer mn mx => exact ⟨le_refl mn, hmin mn mx hkind⟩

/-- C3: for every problem with an objective and integer-kinded variables
on which the brute-force engine returns Ok, the returned point satisfies
every constraint under the tolerance rule (`meets_point`, with
tol = f32 epsilon cast to f64), and no integer assignment within the
declared [min, max] bounds that satisfies all constraints under that rule
has a strictly better objective value than the returned objective
(strictly smaller for Minimize, strictly larger for Maximize). -/
theorem brute_optimal (p : Problem) (e : Expression) (k : ObjectiveKind) (s : Solution)
    (hobj : p.objective = some (e, k))
    (hint : ∃ mn mx, VariableKind.integer mn mx ∈ p.vars)
    (hok : brute.solve p = .ok s) :
    meets_point s.coeffs (brute.constraintsOf p) = true ∧
    ∃ b, s.objective = some b ∧
      ∀ w : List Int, in_box (brute.boundsOf p) w →
        meets_point (int_point w) (brute.constraintsOf p) = true →
        ¬ k.strictly_better (lin_value (int_point w) (brute.objCoeffsOf p e)) b := by
  simp only [brute.solve, hobj] at hok
  split at hok
  · exact absurd hok (by simp)
  · next hne =>
    rw [SolveResult.ok.injEq] at hok
    subst hok
    constructor
    · rcases ck_Rel (brute.constraintsOf p) ⟨brute.objCoeffsOf p e, k⟩ p.vars.length 0
          (brute.init_state p k) with ⟨hb, _⟩ | ⟨hm, _, _⟩
      · exact absurd hb.symm hne
      · exact hm
    · refine ⟨(brute.final_state p e k).best, rfl, ?_⟩
      intro w hbox hmw
      have hlen0 : (brute.init_state p k).vars.length = p.vars.length := init_vars_len p k
      have hpos : 0 < p.vars.length := by
        by_contra h0
        apply hne
        have hz : p.vars.length = 0 := by omega
        show brute.sentinel k = (brute.final_state p e k).best
        unfold brute.final_state
        rw [hz]
        rfl
      have hwlen : w.length = (brute.init_state p k).vars.length := by
        have h1 := List.Forall₂.length_eq hbox
        have h2 : (brute.boundsOf p).length = p.vars.length := by simp [brute.boundsOf]
        omega
      have hbounds0 : ∀ i v x, (brute.init_state p k).vars.get? i = some v →
          w.get? i = some x → v.min ≤ x ∧ x ≤ v.max := by
        intro i v x hv hx
        rw [List.get?_eq_getElem?] at hv
        simp only [brute.init_state] at hv
        rw [List.getElem?_map] at hv
        cases hbp : (brute.boundsOf p)[i]? with
        | none => rw [hbp] at hv; simp at hv
        | some bp =>
          rw [hbp] at hv
          simp only [Option.map_some', Option.some.injEq] at hv
          subst hv
          exact forall₂_get? hbox i bp x (by rw [List.get?_eq_getElem?]; exact hbp) hx
      have happ := ck_opt (brute.constraintsOf p) ⟨brute.objCoeffsOf p e, k⟩
        p.vars.length 0 (brute.init_state p k) w
        (by omega) (by omega) hwlen
        (fun i hi => absurd hi (Nat.not_lt_zero i))
        hbounds0 hmw
      exact not_sb_of_not_worse happ

theorem brute_optimal_witness :
    brute.solve ⟨[.integer 0 1, .integer 0 1], [⟨[1, 1], .lessThanOrEqualTo, 1⟩],
      some ([1, 1], .maximize)⟩ = .ok ⟨[0, 1], some 1⟩ ∧
    (meets_point (⟨[0, 1], some 1⟩ : Solution).coeffs
      (brute.constraintsOf ⟨[.integer 0 1, .integer 0 1],
        [⟨[1, 1], .lessThanOrEqualTo, 1⟩], some ([1, 1], .maximize)⟩) = true ∧
     ∃ b, (⟨[0, 1], some 1⟩ : Solution).objective = some b ∧
       ∀ w : List Int, in_box (brute.boundsOf ⟨[.integer 0 1, .integer 0 1],
           [⟨[1, 1], .lessThanOrEqualTo, 1⟩], some ([1, 1], .maximize)⟩) w →
         meets_point (int_point w) (brute.constraintsOf ⟨[.integer 0 1, .integer 0 1],
           [⟨[1, 1], .lessThanOrEqualTo, 1⟩], some ([1, 1], .maximize)⟩) = true →
         ¬ ObjectiveKind.maximize.strictly_better
           (lin_value (int_point w) (brute.objCoeffsOf ⟨[.integer 0 1, .integer 0 1],
             [⟨[1, 1], .lessThanOrEqualTo, 1⟩], some ([1, 1], .maximize)⟩ [1, 1])) b) :=
  ⟨by decide,
    brute_optimal ⟨[.integer 0 1, .integer 0 1], [⟨[1, 1], .lessThanOrEqualTo, 1⟩],
      some ([1, 1], .maximize)⟩ [1, 1] .maximize ⟨[0, 1], some 1⟩
      rfl ⟨0, 1, by decide⟩ (by decide)⟩

/-- C10: whenever the brute-force engine returns Ok, every coordinate of
the returned value vector is the exact image of an integer; and provided
every Integer variable's declared min is at most its max, each coordinate
lies within that variable's inclusive bounds, with Continuous variables'
coordinates equal to 0 (their bounds are pinned to [0, 0]). -/
theorem brute_solution_integral (p : Problem) (s : Solution)
    (hok : brute.solve p = .ok s) :
    (∃ zs : List Int, s.coeffs = int_point zs) ∧
    ((∀ mn mx, VariableKind.integer mn mx ∈ p.vars → mn ≤ mx) →
      List.Forall₂ (fun kind c =>
        match kind with
        | VariableKind.continuous => c = 0
        | VariableKind.integer mn mx => (mn : ℚ) ≤ c ∧ c ≤ (mx : ℚ)) p.vars s.coeffs) := by
  cases hobj : p.objective with
  | none =>
    simp only [brute.solve, hobj] at hok
    exact absurd hok (by simp)
  | some ek =>
    obtain ⟨e, k⟩ := ek
    simp only [brute.solve, hobj] at hok
    split at hok
    · exact absurd hok (by simp)
    · next hne =>
      rw [SolveResult.ok.injEq] at hok
      subst hok
      constructor
      · exact ⟨(brute.final_state p e k).solution, rfl⟩
      · intro hmin
        obtain ⟨_, hd⟩ := ck_box (brute.constraintsOf p) ⟨brute.objCoeffsOf p e, k⟩
          p.vars.length 0 (brute.init_state p k) (init_okVars p k hmin)
        rcases hd with ⟨_, hb⟩ | hbox
        · exact absurd hb.symm hne
        · rw [init_bnds] at hbox
          simp only [in_box, brute.boundsOf] at hbox
          rw [List.forall₂_map_left_iff] at hbox
          show List.Forall₂ _ p.vars ((brute.final_state p e k).solution.map _)
          rw [List.forall₂_map_right_iff]
          refine List.Forall₂.imp ?_ hbox
          intro kind z hz
          cases kind with
          | continuous =>
            show (z : ℚ) = 0
            have h1 : (0 : ℤ) ≤ z := hz.1
            have h2 : z ≤ (0 : ℤ) := hz.2
            have hz0 : z = 0 := le_antisymm h2 h1
            rw [hz0]
            exact Int.cast_zero
          | integer mn mx =>
            exact ⟨Int.cast_le.mpr hz.1, Int.cast_le.mpr hz.2⟩

theorem brute_solution_integral_witness :
    brute.solve ⟨[.integer 0 1, .integer 0 1], [⟨[1, 1], .lessThanOrEqualTo, 1⟩],
      some ([1, 1], .maximize)⟩ = .ok ⟨[0, 1], some 1⟩ ∧
    List.Forall₂ (fun kind c =>
      match kind with
      | VariableKind.continuous => c = 0
      | VariableKind.integer mn mx => (mn : ℚ) ≤ c ∧ c ≤ (mx : ℚ))
      (⟨[.integer 0 1, .integer 0 1], [⟨[1, 1], .lessThanOrEqualTo, 1⟩],
        some ([1, 1], .maximize)⟩ : Problem).vars (⟨[0, 1], some 1⟩ : Solution).coeffs :=
  ⟨by decide,
    (brute_solution_integral ⟨[.integer 0 1, .integer 0 1],
      [⟨[1, 1], .lessThanOrEqualTo, 1⟩], some ([1, 1], .maximize)⟩ ⟨[0, 1], some 1⟩
      (by decide)).2 (by
        intro mn mx h
        have h2 : VariableKind.integer mn mx ∈
            [VariableKind.integer 0 1, VariableKind.integer 0 1] := h
        simp only [List.mem_cons, List.not_mem_nil, or_false,
          VariableKind.integer.injEq] at h2
        rcases h2 with ⟨rfl, rfl⟩ | ⟨rfl, rfl⟩ <;> decide)⟩

end Rusolve
